import Mathlib

/-!
Verification of the svngrab orchestration pipeline.

The definitions below are a shallow embedding of the Go sources:
the `config` package (configuration model, `Url`, `Wc`), the `repo`
package (`ExportMode`, `Exporter`), and the `run` package (variable
substitution, `Run` orchestration, `copyOptions`, `symlinkAction`,
`dirExistsAction`, `skipFunc`, `ShellEnv.Append` and serialization).

Strings are modelled as Lean strings (lists of characters).  The Go
sources index strings by byte; every place the embedding slices a
string, the sliced prefix consists of ASCII characters only, so byte
indices and character indices agree.  Case mapping (strings.ToUpper and
strings.ToLower) is modelled on the ASCII range; Go additionally maps a
handful of non-ASCII letters into ASCII, which no claim exercises.

Filesystem, network and process effects (repository construction,
pinging, fetching, revision queries, copying, archiving, writing the
configuration and the shell environment) are modelled by an explicit
oracle of pure functions, and the orchestrator is modelled as a pure
function from a configuration and an oracle to a result together with a
trace of the effectful actions it performed, in order.
-/

/-- One step of the character-level scan performed by Go strings.ReplaceAll
for a nonempty pattern char p followed by ps: leftmost, non-overlapping
replacement.  The Nat argument is fuel; callers supply the length of the
scanned list, which bounds the recursion depth. -/
def replGo (p : Char) (ps rep : List Char) : Nat → List Char → List Char
  | 0, s => s
  | _ + 1, [] => []
  | f + 1, c :: cs =>
    if c = p && ps.isPrefixOf cs then
      rep ++ replGo p ps rep f (cs.drop ps.length)
    else
      c :: replGo p ps rep f cs

/-- Go strings.ReplaceAll with an empty pattern inserts the replacement
before every character and once at the end. -/
def interleave (rep : List Char) : List Char → List Char
  | [] => rep
  | c :: cs => rep ++ c :: interleave rep cs

/-- Embedding of Go strings.ReplaceAll(s, pat, rep). -/
def goReplaceAll (s pat rep : String) : String :=
  match pat.toList with
  | [] => String.mk (interleave rep.toList s.toList)
  | p :: ps => String.mk (replGo p ps rep.toList s.toList.length s.toList)

/-- The variable-substitution loop of the run package: for each binding
(ident, value) in iteration order, every occurrence of ident in the text
is replaced by value.  A Go map's iteration order is unspecified, so the
binding list parameter ranges over all possible enumeration orders. -/
def applySubst (binds : List (String × String)) (text : String) : String :=
  binds.foldl (fun t iv => goReplaceAll t iv.1 iv.2) text

/-- Character class A-Z, embedded via code points. -/
def isUpperAZ (c : Char) : Bool := 65 ≤ c.toNat && c.toNat ≤ 90

/-- Character class 0-9. -/
def isDigit09 (c : Char) : Bool := 48 ≤ c.toNat && c.toNat ≤ 57

/-- Character class [A-Z0-9_], the identifier class of reNonidents. -/
def identChar (c : Char) : Bool := isUpperAZ c || isDigit09 c || c = '_'

/-- Character class [A-Z_]: characters allowed to start a sanitized key
without being replaced by the first alternative of reNonidents. -/
def keyStartChar (c : Char) : Bool := isUpperAZ c || c = '_'

/-- ASCII letters a-z or A-Z, the class [a-zA-Z] of urlProtocol. -/
def isAsciiAlpha (c : Char) : Bool :=
  (65 ≤ c.toNat && c.toNat ≤ 90) || (97 ≤ c.toNat && c.toNat ≤ 122)

/-- The regexp character class interpreted for a backslash-s escape in Go
regular expressions: tab, newline, form feed, carriage return, space. -/
def isPerlSpace (c : Char) : Bool :=
  c.toNat = 9 || c.toNat = 10 || c.toNat = 12 || c.toNat = 13 || c.toNat = 32

/-- Whitespace recognized by Go strings.TrimSpace, restricted to the
ASCII range (tab, newline, vertical tab, form feed, carriage return,
space). -/
def isGoSpace (c : Char) : Bool :=
  c.toNat = 9 || c.toNat = 10 || c.toNat = 11 || c.toNat = 12 ||
  c.toNat = 13 || c.toNat = 32

/-- Go strings.ToUpper on one character, ASCII range. -/
def goUpperChar (c : Char) : Char :=
  if 97 ≤ c.toNat && c.toNat ≤ 122 then Char.ofNat (c.toNat - 32) else c

/-- Go strings.ToLower on one character, ASCII range. -/
def goLowerChar (c : Char) : Char :=
  if 65 ≤ c.toNat && c.toNat ≤ 90 then Char.ofNat (c.toNat + 32) else c

/-- Go strings.ToLower, ASCII range. -/
def goToLower (s : String) : String := String.mk (s.toList.map goLowerChar)

/-- Drop the longest suffix of the list all of whose characters satisfy
the predicate (the right-hand half of a Go Trim). -/
def dropTrailingWhile (p : Char → Bool) : List Char → List Char
  | [] => []
  | c :: cs =>
    match dropTrailingWhile p cs with
    | [] => if p c then [] else [c]
    | t => c :: t

/-- Go strings.TrimSpace (ASCII whitespace). -/
def goTrimSpace (s : String) : String :=
  String.mk (dropTrailingWhile isGoSpace (s.toList.dropWhile isGoSpace))

/-- Go strings.Trim(s, cutset) for the single-character cutset "_". -/
def trimUnderscores (l : List Char) : List Char :=
  dropTrailingWhile (fun c => c = '_') (l.dropWhile (fun c => c = '_'))

/-- The run of replacements performed by
reNonidents.ReplaceAllLiteralString on positions past the first: each
maximal run of characters outside [A-Z0-9_] becomes one underscore.  The
Bool argument records whether the previous character was part of such a
run (in which case the current run character was already paid for). -/
def replRunsAux (inRun : Bool) : List Char → List Char
  | [] => []
  | c :: cs =>
    if identChar c then c :: replRunsAux false cs
    else if inRun then replRunsAux true cs
    else '_' :: replRunsAux true cs

/-- Embedding of reNonidents.ReplaceAllLiteralString(key, "_") where
reNonidents matches a first character outside [A-Z_] (one character, the
first alternative of the pattern) or a run of characters outside
[A-Z0-9_].  Go regexp alternation is leftmost-first, so at position zero
a character outside [A-Z_] is consumed alone by the first alternative. -/
def replNonidents : List Char → List Char
  | [] => []
  | c :: cs => (if keyStartChar c then c else '_') :: replRunsAux false cs

/-- Embedding of reUnderscores.ReplaceAllLiteralString(key, "_"): each
maximal run of underscores collapses to a single underscore. -/
def collapseAux (prevU : Bool) : List Char → List Char
  | [] => []
  | c :: cs =>
    if c = '_' then
      if prevU then collapseAux true cs else '_' :: collapseAux true cs
    else c :: collapseAux false cs

/-- The key sanitization performed inside ShellEnv.Append:
upper-case the trimmed key, replace non-identifier characters by
underscores, collapse underscore runs, trim underscores at both ends. -/
def sanitizeKey (s : String) : String :=
  String.mk (trimUnderscores (collapseAux false (replNonidents
    ((goTrimSpace s).toList.map goUpperChar))))

/-- Go path.Clean, component-stack formulation: split on slashes, drop
empty and dot components, resolve dot-dot against the stack (dropped at
the root of a rooted path, preserved at the front of a relative path). -/
def cleanStack (rooted : Bool) : List String → List String → List String
  | st, [] => st
  | st, c :: cs =>
    if c = "" || c = "." then cleanStack rooted st cs
    else if c = ".." then
      match st with
      | [] => cleanStack rooted (if rooted then [] else [".."]) cs
      | t :: ts =>
        if t = ".." then cleanStack rooted (".." :: t :: ts) cs
        else cleanStack rooted ts cs
    else cleanStack rooted (c :: st) cs

/-- Go strings.Split(s, "/"): the slash-separated components of the
string, empty components included. -/
def splitSlashAux (acc : List Char) : List Char → List String
  | [] => [String.mk acc.reverse]
  | c :: cs =>
    if c = '/' then String.mk acc.reverse :: splitSlashAux [] cs
    else splitSlashAux (c :: acc) cs

/-- Split a string on slashes. -/
def splitSlash (s : String) : List String := splitSlashAux [] s.toList

/-- Join components with single slashes (strings.Join(elems, "/")). -/
def joinSlash : List String → String
  | [] => ""
  | [x] => x
  | x :: xs => x ++ "/" ++ joinSlash xs

/-- Embedding of Go path.Clean (lexical path normalization). -/
def goClean (s : String) : String :=
  if s = "" then "."
  else
    let rooted : Bool := s.toList.head? = some '/'
    let comps := (cleanStack rooted [] (splitSlash s)).reverse
    if comps.isEmpty then (if rooted then "/" else ".")
    else (if rooted then "/" else "") ++ joinSlash comps

/-- Embedding of Go path.Join restricted to two elements (also the
behavior of filepath.Join on two elements on a Unix host): skip leading
empty elements, join with a slash, clean. -/
def goJoin2 (a b : String) : String :=
  if a = "" then (if b = "" then "" else goClean b)
  else goClean (a ++ "/" ++ b)

/-- Go filepath.IsAbs on a Unix host. -/
def goIsAbs (s : String) : Bool := s.toList.head? = some '/'

/-- Go strings.HasSuffix. -/
def goHasSuffix (s suf : String) : Bool :=
  suf.toList.reverse.isPrefixOf s.toList.reverse

/-- Go strings.TrimRight(s, "/"). -/
def goTrimRightSlash (s : String) : String :=
  String.mk (dropTrailingWhile (fun c => c = '/') s.toList)

/-- Go strings.TrimLeft(s, "/"). -/
def goTrimLeftSlash (s : String) : String :=
  String.mk (s.toList.dropWhile (fun c => c = '/'))

/-- Embedding of urlProtocol.FindStringIndex: the anchored pattern
backslash-s star, [a-zA-Z] plus, colon slash slash.  Returns the end
index of the match (the start is always zero for an anchored pattern),
or none if the head of the string does not match.  Greedy matching with
backtracking coincides with maximal munch here because the three parts
of the pattern draw from pairwise disjoint character sets. -/
def matchProtocol (s : String) : Option Nat :=
  let cs := s.toList
  let ws := cs.takeWhile isPerlSpace
  let afterWs := cs.dropWhile isPerlSpace
  let letters := afterWs.takeWhile isAsciiAlpha
  if letters.isEmpty then none
  else if (String.toList "://").isPrefixOf (afterWs.drop letters.length) then
    some (ws.length + letters.length + 3)
  else none

/-- config.ExportConfig: one export entry (remote locator, sub-path,
local working-copy root, last-known revision). -/
structure ExportConfig where
  Repo : String
  Path : String
  Local : String
  Last : String
deriving DecidableEq

/-- ExportConfig.Url: when the remote locator carries a protocol scheme
(matched by urlProtocol), the matched prefix is kept verbatim and only
the remainder is joined with the sub-path, because path.Join would
collapse the double slash; otherwise the locator and sub-path are
joined directly. -/
def ExportConfig.Url (e : ExportConfig) : String :=
  match matchProtocol e.Repo with
  | some i =>
    String.mk (e.Repo.toList.take i) ++
      goJoin2 (String.mk (e.Repo.toList.drop i)) e.Path
  | none => goJoin2 e.Repo e.Path

/-- ExportConfig.Wc: the local working path, filepath.Join(Local, Path). -/
def ExportConfig.Wc (e : ExportConfig) : String := goJoin2 e.Local e.Path

/-- repo.ExportMode. -/
inductive ExportMode where
  | UpdateMode
  | CheckoutMode
deriving DecidableEq

/-- ExportMode.String: the names indexed by the enumeration value. -/
def ExportMode.str : ExportMode → String
  | .UpdateMode => "update"
  | .CheckoutMode => "checkout"

/-- repo.Repo: the VCS handle built by repo.New from an export entry.
vcs.NewSvnRepo(cfg.Url(), cfg.Wc()) records the remote URL and the local
path, both derived from the entry. -/
structure Repo where
  cfg : ExportConfig
deriving DecidableEq

/-- SvnRepo.Remote: the remote URL given to vcs.NewSvnRepo. -/
def Repo.Remote (r : Repo) : String := r.cfg.Url

/-- SvnRepo.LocalPath: the local path given to vcs.NewSvnRepo. -/
def Repo.LocalPath (r : Repo) : String := r.cfg.Wc

/-- SvnRepo.CheckLocal asks the filesystem whether a working copy exists
at the local path; the filesystem is an oracle parameter. -/
def Repo.CheckLocal (fsExists : String → Bool) (r : Repo) : Bool :=
  fsExists r.LocalPath

/-- repo.Repo.Exporter: update if a local working copy exists, else
checkout.  The source also returns the corresponding fetch method; the
mode determines it, so the embedding returns the mode alone. -/
def Repo.Exporter (fsExists : String → Bool) (r : Repo) : ExportMode :=
  if r.CheckLocal fsExists then ExportMode.UpdateMode
  else ExportMode.CheckoutMode

/-- config.IncludeCopyConfig: one copy operation of a package rule. -/
structure IncludeCopyConfig where
  Repo : String
  Package : String
  Conflict : String
  Symlinks : String
  Ignore : List String
deriving DecidableEq

/-- config.IncludePathConfig: one include operation (its copy part). -/
structure IncludePathConfig where
  Copy : IncludeCopyConfig
deriving DecidableEq

/-- config.CompressConfig: optional compressed-archive directive. -/
structure CompressConfig where
  Output : String
  Overwrite : Bool
  Method : String
  Level : Int
deriving DecidableEq

/-- config.PackageConfig: one package rule.  IncludeList is a list of
IncludeMap values; an IncludeMap is a map expected to hold a single
key-value pair, modelled as an association list in iteration order. -/
structure PackageConfig where
  Roster : Bool
  Include : List (List (String × List IncludePathConfig))
  Compress : CompressConfig
deriving DecidableEq

/-- config.Config: export map and package map, modelled as association
lists in iteration order (Go map iteration order is unspecified). -/
structure Config where
  Export : List (String × ExportConfig)
  Package : List (String × PackageConfig)
deriving DecidableEq

/-- copy.SymlinkAction of the copy collaborator. -/
inductive SymlinkAction where
  | Deep
  | Shallow
  | Skip
deriving DecidableEq

/-- copy.DirExistsAction of the copy collaborator. -/
inductive DirExistsAction where
  | Merge
  | Replace
  | Untouchable
deriving DecidableEq

/-- run.DefaultSymlinkAction = copy.Skip. -/
def DefaultSymlinkAction : SymlinkAction := SymlinkAction.Skip

/-- run.DefaultDirExistsAction = copy.Merge. -/
def DefaultDirExistsAction : DirExistsAction := DirExistsAction.Merge

/-- run.symlinkAction: switch on strings.ToLower(action) with the
default for unrecognized strings. -/
def symlinkAction (action : String) : SymlinkAction :=
  if goToLower action = "deep" then SymlinkAction.Deep
  else if goToLower action = "shallow" then SymlinkAction.Shallow
  else if goToLower action = "skip" then SymlinkAction.Skip
  else DefaultSymlinkAction

/-- run.dirExistsAction: switch on strings.ToLower(action) with the
default for unrecognized strings. -/
def dirExistsAction (action : String) : DirExistsAction :=
  if goToLower action = "merge" then DirExistsAction.Merge
  else if goToLower action = "replace" then DirExistsAction.Replace
  else if goToLower action = "skip" || goToLower action = "ignore" ||
      goToLower action = "untouchable" then DirExistsAction.Untouchable
  else DefaultDirExistsAction

/-- The error values surfaced by the run, repo and config packages that
the orchestration model can produce. -/
inductive RunError where
  | invalidRepository
  | connectionFailed (url : String)
  | exportFailed
  | unknownRevision
  | commitFailed
  | writeFailed
  | upToDate
  | invalidIgnorePattern (pat : String)
  | invalidCompressMethod (m : String)
  | copyFailed
  | archiveFailed
deriving DecidableEq

/-- run.skipFunc: compile each ignore pattern; the first pattern the
regexp library rejects aborts with InvalidIgnorePattern carrying that
pattern.  On success the compiled pattern list is returned (the matching
predicate itself belongs to the external copy collaborator).  Whether a
pattern compiles is a pure property of the pattern, supplied by the
regexp-library oracle. -/
def skipFunc (compiles : String → Bool) : List String → Except RunError (List String)
  | [] => Except.ok []
  | p :: ps =>
    if compiles p then
      match skipFunc compiles ps with
      | Except.ok l => Except.ok (p :: l)
      | Except.error e => Except.error e
    else Except.error (RunError.invalidIgnorePattern p)

/-- The copy options assembled by run.copyOptions, less the closures
handed to the external copier. -/
structure CopyOptions where
  OnSymlink : SymlinkAction
  OnDirExists : DirExistsAction
  ignore : List String
deriving DecidableEq

/-- run.copyOptions: resolve relative source against the include source
root and relative destination against the package root, resolve the
policy strings, compile the ignore patterns. -/
def copyOptions (compiles : String → Bool) (srcPath pkgPath : String)
    (cfg : IncludeCopyConfig) : String × String × CopyOptions × Option RunError :=
  let src := if goIsAbs cfg.Repo then cfg.Repo else goJoin2 srcPath cfg.Repo
  let dst := if goIsAbs cfg.Package then cfg.Package else goJoin2 pkgPath cfg.Package
  let symlinks := symlinkAction cfg.Symlinks
  let conflict := dirExistsAction cfg.Conflict
  match skipFunc compiles cfg.Ignore with
  | Except.ok ign => (src, dst, ⟨symlinks, conflict, ign⟩, none)
  | Except.error e => (src, dst, ⟨symlinks, conflict, []⟩, some e)

/-- run.makeArchiver, extension normalization only: the archiver object
itself belongs to the external archiver collaborator.  Returns the
normalized output path or InvalidCompressMethod.  A recognized method
determines a canonical extension; if the declared output does not carry
an extension the archiver accepts for that method, any existing
extension is stripped and the canonical one appended. -/
def goExtScan (acc : List Char) : List Char → List Char
  | [] => []
  | c :: rest =>
    if c = '.' then '.' :: acc
    else if c = '/' then []
    else goExtScan (c :: acc) rest

/-- Go filepath.Ext: the suffix beginning at the final dot in the final
slash-separated element, empty if there is no dot. -/
def goExt (s : String) : String := String.mk (goExtScan [] s.toList.reverse)

/-- Go strings.TrimSuffix. -/
def goTrimSuffix (s suf : String) : String :=
  if suf ≠ "" && goHasSuffix s suf then
    String.mk (s.toList.take (s.toList.length - suf.toList.length))
  else s

/-- The extensions archiver.CheckExt accepts per compression method. -/
def archiverAccepts (exts : List String) (out : String) : Bool :=
  exts.any (fun e => goHasSuffix out e)

/-- Normalize the declared output name for a selected method: if no
accepted extension is present, strip any existing extension and append
the canonical one. -/
def normalizeOutput (out : String) (ext : String) (accepted : List String) : String :=
  if archiverAccepts accepted out then out
  else (if goExt out ≠ "" then goTrimSuffix out (goExt out) else out) ++ ext

/-- run.makeArchiver: select by strings.ToLower(method), then normalize
the output extension. -/
def makeArchiver (c : CompressConfig) : Except RunError String :=
  let m := goToLower c.Method
  if m = "zip" || m = ".zip" then
    Except.ok (normalizeOutput c.Output ".zip" [".zip"])
  else if m = "gz" || m = ".gz" || m = "tgz" || m = ".tgz" || m = "targz" ||
      m = "tar.gz" || m = ".tar.gz" then
    Except.ok (normalizeOutput c.Output ".tar.gz" [".tar.gz", ".tgz"])
  else if m = "bz2" || m = ".bz2" || m = "tbz" || m = ".tbz" || m = "tbz2" ||
      m = ".tbz2" || m = "tarbz2" || m = "tar.bz2" || m = ".tar.bz2" then
    Except.ok (normalizeOutput c.Output ".tar.bz2" [".tar.bz2", ".tbz2"])
  else Except.error (RunError.invalidCompressMethod c.Method)

/-- One section of the shell environment script (run.shellEnvSection):
a count together with parallel key and value arrays. -/
structure shellEnvSection where
  count : Nat
  key : List String
  val : List String
deriving DecidableEq

/-- shellEnvSection.Len: the count clamped by both array lengths. -/
def shellEnvSection.Len (s : shellEnvSection) : Nat :=
  let n := s.count
  let n := if s.key.length < n then s.key.length else n
  if s.val.length < n then s.val.length else n

/-- The newline sequence log.Eol on a non-Windows host. -/
def Eol : String := "\n"

/-- shellEnvSection.String: one KEY="VALUE" line per index below Len. -/
def shellEnvSection.str (s : shellEnvSection) : String :=
  String.join ((List.range s.Len).map (fun i =>
    (s.key.getD i "") ++ "=\"" ++ (s.val.getD i "") ++ "\"" ++ Eol))

/-- Index of the first of the initial n keys equal to k, if any: the
key-scan loop of ShellEnv.Append. -/
def findKeyIdx : List String → Nat → String → Option Nat
  | _, 0, _ => none
  | [], _ + 1, _ => none
  | x :: xs, n + 1, k =>
    if x = k then some 0 else (findKeyIdx xs n k).map (fun i => i + 1)

/-- The per-section half of ShellEnv.Append, after key sanitization: if
the key already occurs among the first Len entries, overwrite its value
in place; otherwise push the pair and bump the count. -/
def sectAppend (env : shellEnvSection) (k v : String) : shellEnvSection :=
  match findKeyIdx env.key env.Len k with
  | some i => { env with val := env.val.set i v }
  | none => ⟨env.count + 1, env.key ++ [k], env.val ++ [v]⟩

/-- The section list of a ShellEnv, in insertion order. -/
def ShellSections := List (String × shellEnvSection)

/-- Find the named section and rewrite it in place, or append a fresh
empty section of that name: the section-lookup half of ShellEnv.Append. -/
def updateSection (f : shellEnvSection → shellEnvSection) :
    List (String × shellEnvSection) → String → List (String × shellEnvSection)
  | [], name => [(name, f ⟨0, [], []⟩)]
  | (n, e) :: rest, name =>
    if n = name then (n, f e) :: rest else (n, e) :: updateSection f rest name

/-- ShellEnv.Append(section, key, val): locate or create the section,
sanitize the key, then overwrite in place or push. -/
def ShellEnv.Append (sections : List (String × shellEnvSection))
    (sect key val : String) : List (String × shellEnvSection) :=
  updateSection (fun e => sectAppend e (sanitizeKey key) val) sections sect

/-- The effectful actions of one run, in the order performed. -/
inductive Event where
  | initRepo (name : String)
  | ping (name : String)
  | fetch (name : String) (mode : ExportMode)
  | queryRev (name : String) (rev : String)
  | commitEnv
  | writeConfig
  | copy (src dst : String)
  | archive (pkg out : String)
deriving DecidableEq

/-- The external collaborators of one run, as pure oracles: repository
construction, reachability, working-copy existence, fetch outcome,
revision reporting, regexp compilation, copy and archive outcomes, and
the success of the environment commit and the configuration write. -/
structure Oracle where
  newOk : ExportConfig → Bool
  connected : ExportConfig → Bool
  fsExists : String → Bool
  fetchOk : ExportConfig → Bool
  revision : ExportConfig → Option String
  compiles : String → Bool
  copyOk : String → String → Bool
  archiveOk : String → String → Bool
  commitOk : Bool
  writeOk : Bool

/-- The substitution loop at the head of the export loop of run.Run:
each binding is applied to the entry name and to the Repo, Path and
Local fields (the Last field is not touched by the loop). -/
def substExportEntry (binds : List (String × String)) (name : String)
    (e : ExportConfig) : String × ExportConfig :=
  binds.foldl (fun acc iv =>
    (goReplaceAll acc.1 iv.1 iv.2,
     { acc.2 with
        Repo := goReplaceAll acc.2.Repo iv.1 iv.2,
        Path := goReplaceAll acc.2.Path iv.1 iv.2,
        Local := goReplaceAll acc.2.Local iv.1 iv.2 })) (name, e)

/-- Store a repository handle under a name, overwriting an existing
binding of the same name (Go map assignment reps[name] = rep). -/
def insertRepo : List (String × Repo) → String → Repo → List (String × Repo)
  | [], n, r => [(n, r)]
  | (k, v) :: rest, n, r =>
    if k = n then (n, r) :: rest else (k, v) :: insertRepo rest n r

/-- The first export loop of run.Run: for each entry in iteration order,
substitute variables, construct the repository handle, check
connectivity, and store the handle; the first failure aborts. -/
def runExports (o : Oracle) (binds : List (String × String)) :
    List (String × ExportConfig) → List (String × Repo) →
    Except RunError (List (String × Repo)) × List Event
  | [], reps => (Except.ok reps, [])
  | (name, expo) :: rest, reps =>
    let ne := substExportEntry binds name expo
    if o.newOk ne.2 = false then
      (Except.error RunError.invalidRepository, [Event.initRepo ne.1])
    else if o.connected ne.2 = false then
      (Except.error (RunError.connectionFailed ne.2.Url),
       [Event.initRepo ne.1, Event.ping ne.1])
    else
      let r := runExports o binds rest (insertRepo reps ne.1 ⟨ne.2⟩)
      (r.1, Event.initRepo ne.1 :: Event.ping ne.1 :: r.2)

/-- Association-list lookup of an export entry (Go cfg.Export[name]). -/
def lookupExport : List (String × ExportConfig) → String → Option ExportConfig
  | [], _ => none
  | (k, v) :: rest, n => if k = n then some v else lookupExport rest n

/-- Association-list store of an export entry (Go cfg.Export[name] = e;
a name not present is appended, matching map assignment). -/
def storeExport : List (String × ExportConfig) → String → ExportConfig →
    List (String × ExportConfig)
  | [], n, e => [(n, e)]
  | (k, v) :: rest, n, e =>
    if k = n then (n, e) :: rest else (k, v) :: storeExport rest n e

/-- The outcome of the second export loop of run.Run. -/
structure FetchResult where
  err : Option RunError
  events : List Event
  didUpdate : Bool
  exports : List (String × ExportConfig)
deriving DecidableEq

/-- The second export loop of run.Run: for each stored handle, derive
the fetch mode, fetch, query the revision, record whether the revision
differs from the stored last revision, and store the new revision into
the configuration model; the first failure aborts. -/
def runFetch (o : Oracle) :
    List (String × Repo) → List (String × ExportConfig) → FetchResult
  | [], exports => ⟨none, [], false, exports⟩
  | (name, rep) :: rest, exports =>
    let mode := rep.Exporter o.fsExists
    if o.fetchOk rep.cfg = false then
      ⟨some RunError.exportFailed, [Event.fetch name mode], false, exports⟩
    else
      match o.revision rep.cfg with
      | none => ⟨some RunError.unknownRevision, [Event.fetch name mode], false, exports⟩
      | some vers =>
        let step :=
          match lookupExport exports name with
          | some expo =>
            (if expo.Last = vers then false else true,
             storeExport exports name { expo with Last := vers })
          | none => (false, exports)
        let r := runFetch o rest step.2
        ⟨r.err, Event.fetch name mode :: Event.queryRev name vers :: r.events,
         step.1 || r.didUpdate, r.exports⟩

/-- Association-list lookup of a repository handle (Go reps[path]). -/
def lookupRepo : List (String × Repo) → String → Option Repo
  | [], _ => none
  | (k, v) :: rest, n => if k = n then some v else lookupRepo rest n

/-- The include-group resolution loop of run.Run: iterate the pairs of
the group map (expected to hold a single pair), substitute variables
into the key, and use the repository handle of that name when one
exists, else the key itself as a literal path.  The loop overwrites its
two locals on every pair, so the last pair wins, starting from the Go
zero values. -/
def resolveInclude (binds : List (String × String)) (reps : List (String × Repo)) :
    List (String × List IncludePathConfig) → String × List IncludePathConfig
  | grp => grp.foldl (fun _acc pl =>
      let p := applySubst binds pl.1
      match lookupRepo reps p with
      | some rep => (rep.LocalPath, pl.2)
      | none => (p, pl.2)) ("", [])

/-- One include operation of the package loop of run.Run: when the copy
part declares both a source and a destination, substitute variables into
its fields, assemble the copy options, and invoke the copier; a
pattern-compilation failure aborts before the copy is attempted. -/
def runCopyOp (o : Oracle) (binds : List (String × String))
    (srcPath pkgPath : String) (op : IncludePathConfig) :
    Except RunError Unit × List Event :=
  let cp := op.Copy
  if cp.Repo ≠ "" && cp.Package ≠ "" then
    let cp : IncludeCopyConfig :=
      { cp with
          Repo := applySubst binds cp.Repo,
          Package := applySubst binds cp.Package,
          Ignore := cp.Ignore.map (applySubst binds) }
    match copyOptions o.compiles srcPath pkgPath cp with
    | (_, _, _, some e) => (Except.error e, [])
    | (src, dst, _, none) =>
      if o.copyOk src dst then (Except.ok (), [Event.copy src dst])
      else (Except.error RunError.copyFailed, [Event.copy src dst])
  else (Except.ok (), [])

/-- The include-operation loop over one resolved group. -/
def runOps (o : Oracle) (binds : List (String × String))
    (srcPath pkgPath : String) :
    List IncludePathConfig → Except RunError Unit × List Event
  | [] => (Except.ok (), [])
  | op :: rest =>
    match runCopyOp o binds srcPath pkgPath op with
    | (Except.error e, ev) => (Except.error e, ev)
    | (Except.ok _, ev) =>
      let r := runOps o binds srcPath pkgPath rest
      (r.1, ev ++ r.2)

/-- The include-group loop over one package rule. -/
def runIncludes (o : Oracle) (binds : List (String × String))
    (pkgPath : String) (reps : List (String × Repo)) :
    List (List (String × List IncludePathConfig)) →
    Except RunError Unit × List Event
  | [] => (Except.ok (), [])
  | grp :: rest =>
    let si := resolveInclude binds reps grp
    match runOps o binds si.1 pkgPath si.2 with
    | (Except.error e, ev) => (Except.error e, ev)
    | (Except.ok _, ev) =>
      let r := runIncludes o binds pkgPath reps rest
      (r.1, ev ++ r.2)

/-- The compression step of one package rule: skipped when no output
path is declared; otherwise substitute variables into the output path,
select and normalize via makeArchiver, and invoke the archiver. -/
def runCompress (o : Oracle) (binds : List (String × String))
    (pkgPath : String) (c : CompressConfig) : Except RunError Unit × List Event :=
  if c.Output = "" then (Except.ok (), [])
  else
    match makeArchiver { c with Output := applySubst binds c.Output } with
    | Except.error e => (Except.error e, [])
    | Except.ok arcPath =>
      if o.archiveOk pkgPath arcPath then
        (Except.ok (), [Event.archive pkgPath arcPath])
      else (Except.error RunError.archiveFailed, [Event.archive pkgPath arcPath])

/-- One package rule: substitute variables into the destination path,
run every include group, then the optional compression step. -/
def runPackage (o : Oracle) (binds : List (String × String))
    (reps : List (String × Repo)) (pkgPath : String) (pkg : PackageConfig) :
    Except RunError Unit × List Event :=
  let pp := applySubst binds pkgPath
  match runIncludes o binds pp reps pkg.Include with
  | (Except.error e, ev) => (Except.error e, ev)
  | (Except.ok _, ev) =>
    let r := runCompress o binds pp pkg.Compress
    (r.1, ev ++ r.2)

/-- The package loop of run.Run. -/
def runPackages (o : Oracle) (binds : List (String × String))
    (reps : List (String × Repo)) :
    List (String × PackageConfig) → Except RunError Unit × List Event
  | [] => (Except.ok (), [])
  | (pkgPath, pkg) :: rest =>
    match runPackage o binds reps pkgPath pkg with
    | (Except.error e, ev) => (Except.error e, ev)
    | (Except.ok _, ev) =>
      let r := runPackages o binds reps rest
      (r.1, ev ++ r.2)

/-- run.Run after a successful configuration parse: the two export
loops, the shell-environment commit, the early up-to-date return when
the caller passed the update flag and no working copy changed, the
configuration write, and the package loop.  Returns the error value of
the run (none on success) and the trace of performed actions.  YAML
parsing, logging and the user-variable seeding of the Variable table
are outside the model; the binding list is the table in iteration
order. -/
def run (o : Oracle) (update : Bool) (binds : List (String × String))
    (cfg : Config) : Option RunError × List Event :=
  match runExports o binds cfg.Export [] with
  | (Except.error e, ev1) => (some e, ev1)
  | (Except.ok reps, ev1) =>
    let fr := runFetch o reps cfg.Export
    match fr.err with
    | some e => (some e, ev1 ++ fr.events)
    | none =>
      let ev2 := ev1 ++ fr.events ++ [Event.commitEnv]
      if o.commitOk = false then (some RunError.commitFailed, ev2)
      else if update && !fr.didUpdate then (some RunError.upToDate, ev2)
      else
        let ev3 := ev2 ++ [Event.writeConfig]
        if o.writeOk = false then (some RunError.writeFailed, ev3)
        else
          let pr := runPackages o binds reps cfg.Package
          (match pr.1 with
           | Except.error e => some e
           | Except.ok _ => none, ev3 ++ pr.2)

/-- Classifier for trace events produced by the two export loops, as
opposed to the commit, write, copy and archive actions of the later
stages. -/
def exportPhaseEvent : Event → Bool
  | Event.initRepo _ => true
  | Event.ping _ => true
  | Event.fetch _ _ => true
  | Event.queryRev _ _ => true
  | _ => false

/-- An oracle under which every external collaborator succeeds and
every revision query reports revision 5. -/
def allOkOracle : Oracle :=
  ⟨fun _ => true, fun _ => true, fun _ => true, fun _ => true,
   fun _ => some "5", fun _ => true, fun _ _ => true, fun _ _ => true,
   true, true⟩

/-- An oracle that rejects the pattern consisting of one opening
parenthesis, the smallest string Go regexp refuses to compile, and
makes every other collaborator succeed. -/
def badPatternOracle : Oracle :=
  { allOkOracle with compiles := fun s => !(s == "(") }

/-- A remote locator with leading whitespace and a protocol prefix,
used to exercise the Url computation. -/
def urlWitnessA : ExportConfig := ⟨" svn://host//x", "y", "", ""⟩

/-- A remote locator without a protocol prefix. -/
def urlWitnessB : ExportConfig := ⟨"a//b", "y", "", ""⟩

/-- All characters of the list lie in the class [A-Z0-9_]. -/
def allIdent (l : List Char) : Bool := l.all identChar

/-- No two adjacent characters of the list are both underscores. -/
def noDoubleUnderscore : List Char → Bool
  | [] => true
  | [_] => true
  | a :: b :: t => !(a = '_' && b = '_') && noDoubleUnderscore (b :: t)

/-- The last element of a character list, if any. -/
def lastChar : List Char → Option Char
  | [] => none
  | [c] => some c
  | _ :: t => lastChar t

/-- The shape every sanitized key has: all characters in [A-Z0-9_], no
underscore runs, and no underscore at either end. -/
def isSanitizedToken (s : String) : Bool :=
  allIdent s.toList && noDoubleUnderscore s.toList &&
    s.toList.head? ≠ some '_' && lastChar s.toList ≠ some '_'

/-- A sanitized key that is empty or starts with a letter; such keys
are the fixed points of sanitization. -/
def lettersFirst (s : String) : Bool :=
  match s.toList.head? with
  | none => true
  | some c => isUpperAZ c

/-- Substitution passes compose: enumerating the variable table as one
list is the same as substituting with a first part of the enumeration
and then with the rest, so a value inserted by an earlier pass is
scanned again by every later pass. -/
theorem applySubst_append (b1 b2 : List (String × String)) (t : String) :
    applySubst (b1 ++ b2) t = applySubst b2 (applySubst b1 t) := by
  simp [applySubst, List.foldl_append]

/-- C2: the claim asserts that substituting the field consisting of the
token of the first binding yields the first binding's value unchanged
regardless of enumeration order; when the pass for the first binding
runs before the pass for the second, the inserted value is rewritten by
the second pass and the result is "x". -/
theorem claim2_counterexample :
    applySubst [("$A", "$B"), ("$B", "x")] "$A" = "x" := by decide

/-- C2 (amended): a single token's pass replaces occurrences without
rescanning its own insertions (substituting a token by a value that
contains the token leaves the inserted occurrences alone), but the
passes for distinct tokens run sequentially in the unspecified map
order, and a later pass does scan the output of an earlier one: with
the bindings of the example, one order yields the value claimed by the
specification and the other order expands recursively. -/
theorem claim2_theorem :
    goReplaceAll "$A" "$A" "$A$A" = "$A$A" ∧
    applySubst [("$B", "x"), ("$A", "$B")] "$A" = "$B" ∧
    applySubst [("$A", "$B"), ("$B", "x")] "$A" = "x" ∧
    ∀ (b1 b2 : List (String × String)) (t : String),
      applySubst (b1 ++ b2) t = applySubst b2 (applySubst b1 t) :=
  ⟨by decide, by decide, by decide, applySubst_append⟩

/-- C9: the claim asserts that the last-known revision field is
substituted along with the others; at this input the binding rewrites
the name and the Repo, Path and Local fields, yet the Last field still
holds the raw token rather than its substituted value. -/
theorem claim9_counterexample :
    applySubst [("$V", "x")] "$V" = "x" ∧
    (substExportEntry [("$V", "x")] "$V" ⟨"$V", "$V", "$V", "$V"⟩).1 = "x" ∧
    (substExportEntry [("$V", "x")] "$V" ⟨"$V", "$V", "$V", "$V"⟩).2.Repo = "x" ∧
    (substExportEntry [("$V", "x")] "$V" ⟨"$V", "$V", "$V", "$V"⟩).2.Path = "x" ∧
    (substExportEntry [("$V", "x")] "$V" ⟨"$V", "$V", "$V", "$V"⟩).2.Local = "x" ∧
    (substExportEntry [("$V", "x")] "$V" ⟨"$V", "$V", "$V", "$V"⟩).2.Last = "$V" := by
  decide

/-- C9 (amended): before an export entry is used, variable substitution
is applied to the entry's name and to its remote locator, sub-path and
local working-copy root, while the last-known revision field passes
through the substitution loop unchanged. -/
theorem claim9_theorem (binds : List (String × String)) (name : String)
    (e : ExportConfig) :
    substExportEntry binds name e =
      (applySubst binds name,
       ⟨applySubst binds e.Repo, applySubst binds e.Path,
        applySubst binds e.Local, e.Last⟩) := by
  induction binds generalizing name e with
  | nil => rfl
  | cons b bs ih =>
    simp only [substExportEntry, applySubst, List.foldl_cons] at *
    exact ih (goReplaceAll name b.1 b.2) _

/-- C7: the fetch mode is a pure function of working-copy existence at
the handle's resolved local root: absent means checkout, present means
update, and the stored last revision does not influence the outcome. -/
theorem claim7_theorem (fsExists : String → Bool) (cfg : ExportConfig) :
    (fsExists (Repo.mk cfg).LocalPath = false →
      Repo.Exporter fsExists ⟨cfg⟩ = ExportMode.CheckoutMode) ∧
    (fsExists (Repo.mk cfg).LocalPath = true →
      Repo.Exporter fsExists ⟨cfg⟩ = ExportMode.UpdateMode) ∧
    ∀ rev : String,
      Repo.Exporter fsExists ⟨{ cfg with Last := rev }⟩ =
        Repo.Exporter fsExists ⟨cfg⟩ := by
  refine ⟨fun h => ?_, fun h => ?_, fun rev => ?_⟩
  · simp [Repo.Exporter, Repo.CheckLocal, h]
  · simp [Repo.Exporter, Repo.CheckLocal, h]
  · rfl

/-- Witness for C7 at a concrete handle and the two filesystem states. -/
theorem claim7_witness :
    Repo.Exporter (fun _ => false) ⟨⟨"r", "p", "l", "1"⟩⟩ = ExportMode.CheckoutMode ∧
    Repo.Exporter (fun _ => true) ⟨⟨"r", "p", "l", "1"⟩⟩ = ExportMode.UpdateMode :=
  ⟨(claim7_theorem (fun _ => false) ⟨"r", "p", "l", "1"⟩).1 rfl,
   (claim7_theorem (fun _ => true) ⟨"r", "p", "l", "1"⟩).2.1 rfl⟩

/-- A small code point survives the Char round trip. -/
theorem charToNat_ofNat_small (n : Nat) (h : n < 55296) : (Char.ofNat n).toNat = n := by
  have hv : n.isValidChar := Or.inl h
  simp [Char.ofNat, hv, Char.ofNatAux, Char.toNat, UInt32.toNat]

/-- ASCII lower-casing of one character is idempotent. -/
theorem goLowerChar_idem (c : Char) : goLowerChar (goLowerChar c) = goLowerChar c := by
  unfold goLowerChar
  by_cases h1 : 65 ≤ c.toNat
  · by_cases h2 : c.toNat ≤ 90
    · have hn : (Char.ofNat (c.toNat + 32)).toNat = c.toNat + 32 :=
        charToNat_ofNat_small _ (by omega)
      simp [h1, h2, hn]
      omega
    · simp [h2]
  · simp [h1]

/-- ASCII lower-casing of a string is idempotent. -/
theorem goToLower_idem (s : String) : goToLower (goToLower s) = goToLower s := by
  have key : ∀ l : List Char, (l.map goLowerChar).map goLowerChar = l.map goLowerChar := by
    intro l
    induction l with
    | nil => rfl
    | cons c cs ih => simp [goLowerChar_idem c, ih]
  simp [goToLower, String.toList, key]

/-- C8: policy resolution is case-insensitive (a string resolves exactly
as its lower-cased form does), each recognized string resolves to its
named action, and every other string — the empty string included —
resolves to the defaults: merge for the conflict policy and skip for
the symlink policy. -/
theorem claim8_theorem (s : String) :
    (symlinkAction s = symlinkAction (goToLower s) ∧
     dirExistsAction s = dirExistsAction (goToLower s)) ∧
    (goToLower s = "deep" → symlinkAction s = SymlinkAction.Deep) ∧
    (goToLower s = "shallow" → symlinkAction s = SymlinkAction.Shallow) ∧
    (goToLower s = "skip" → symlinkAction s = SymlinkAction.Skip) ∧
    (goToLower s ≠ "deep" → goToLower s ≠ "shallow" → goToLower s ≠ "skip" →
      symlinkAction s = DefaultSymlinkAction) ∧
    (goToLower s = "merge" → dirExistsAction s = DirExistsAction.Merge) ∧
    (goToLower s = "replace" → dirExistsAction s = DirExistsAction.Replace) ∧
    (goToLower s = "skip" ∨ goToLower s = "ignore" ∨ goToLower s = "untouchable" →
      dirExistsAction s = DirExistsAction.Untouchable) ∧
    (goToLower s ≠ "merge" → goToLower s ≠ "replace" → goToLower s ≠ "skip" →
      goToLower s ≠ "ignore" → goToLower s ≠ "untouchable" →
      dirExistsAction s = DefaultDirExistsAction) ∧
    symlinkAction "" = DefaultSymlinkAction ∧
    dirExistsAction "" = DefaultDirExistsAction := by
  refine ⟨⟨?_, ?_⟩, fun h => ?_, fun h => ?_, fun h => ?_, fun h1 h2 h3 => ?_,
    fun h => ?_, fun h => ?_, fun h => ?_, fun h1 h2 h3 h4 h5 => ?_, by decide, by decide⟩
  · simp [symlinkAction, goToLower_idem]
  · simp [dirExistsAction, goToLower_idem]
  · simp [symlinkAction, h]
  · simp [symlinkAction, h]
  · simp [symlinkAction, h]
  · simp [symlinkAction, h1, h2, h3]
  · simp [dirExistsAction, h]
  · simp [dirExistsAction, h]
  · rcases h with h | h | h <;> simp [dirExistsAction, h]
  · simp [dirExistsAction, h1, h2, h3, h4, h5]

/-- Witness for C8: a mixed-case recognized symlink string, a
mixed-case conflict alias, an unrecognized string, and the empty
string. -/
theorem claim8_witness :
    symlinkAction "DeEp" = SymlinkAction.Deep ∧
    dirExistsAction "IGNORE" = DirExistsAction.Untouchable ∧
    symlinkAction "bogus" = DefaultSymlinkAction ∧
    dirExistsAction "" = DefaultDirExistsAction :=
  by
  have h1 := claim8_theorem "DeEp"
  have h2 := claim8_theorem "IGNORE"
  have h3 := claim8_theorem "bogus"
  have h4 := claim8_theorem ""
  exact ⟨h1.2.1 (by decide), h2.2.2.2.2.2.2.2.1 (Or.inr (Or.inl (by decide))),
    h3.2.2.2.2.1 (by decide) (by decide) (by decide), h4.2.2.2.2.2.2.2.2.2.2⟩

/-- C6: two appends into the same section whose keys sanitize to the
same token leave exactly one entry for that token, holding the second
value, and the section serializes to exactly one line for it. -/
theorem claim6_theorem (sect k1 k2 v1 v2 : String)
    (h : sanitizeKey k1 = sanitizeKey k2) :
    ShellEnv.Append (ShellEnv.Append [] sect k1 v1) sect k2 v2 =
      [(sect, ⟨1, [sanitizeKey k1], [v2]⟩)] ∧
    shellEnvSection.str ⟨1, [sanitizeKey k1], [v2]⟩ =
      sanitizeKey k1 ++ "=\"" ++ v2 ++ "\"" ++ Eol := by
  constructor
  · simp [ShellEnv.Append, updateSection, sectAppend, shellEnvSection.Len,
      findKeyIdx, h]
  · simp [shellEnvSection.str, shellEnvSection.Len, List.range_succ, String.join]

/-- Witness for C6: the concrete scenario of the specification, with
append("s","k","1") then append("s","k","2") producing the single line
with the sanitized key and the value 2. -/
theorem claim6_witness :
    ShellEnv.Append (ShellEnv.Append [] "s" "k" "1") "s" "k" "2" =
      [("s", ⟨1, ["K"], ["2"]⟩)] ∧
    shellEnvSection.str ⟨1, ["K"], ["2"]⟩ = "K=\"2\"" ++ Eol := by
  have h := claim6_theorem "s" "k" "k" "1" "2" rfl
  have hk : sanitizeKey "k" = "K" := by decide
  rw [hk] at h
  exact ⟨h.1, h.2.trans (by decide)⟩

/-- Every event emitted by the first export loop is an export-phase
event: the loop never commits, writes, copies or archives. -/
theorem runExports_events_phase (o : Oracle) (binds : List (String × String)) :
    ∀ (exports : List (String × ExportConfig)) (reps0 : List (String × Repo)),
      ∀ e ∈ (runExports o binds exports reps0).2, exportPhaseEvent e = true := by
  intro exports
  induction exports with
  | nil => intro reps0 e he; simp [runExports] at he
  | cons p rest ih =>
    obtain ⟨name, expo⟩ := p
    intro reps0 e he
    simp only [runExports] at he
    cases hn : o.newOk (substExportEntry binds name expo).2 with
    | false =>
      rw [hn] at he
      simp at he
      simp [he, exportPhaseEvent]
    | true =>
      rw [hn] at he
      cases hc : o.connected (substExportEntry binds name expo).2 with
      | false =>
        rw [hc] at he
        simp at he
        rcases he with he | he <;> simp [he, exportPhaseEvent]
      | true =>
        rw [hc] at he
        simp at he
        rcases he with he | he | he
        · simp [he, exportPhaseEvent]
        · simp [he, exportPhaseEvent]
        · exact ih _ e he

/-- Every event emitted by the second export loop is an export-phase
event. -/
theorem runFetch_events_phase (o : Oracle) :
    ∀ (reps : List (String × Repo)) (exports : List (String × ExportConfig)),
      ∀ e ∈ (runFetch o reps exports).events, exportPhaseEvent e = true := by
  intro reps
  induction reps with
  | nil => intro exports e he; simp [runFetch] at he
  | cons r rest ih =>
    obtain ⟨name, rep⟩ := r
    intro exports e he
    simp only [runFetch] at he
    cases hf : o.fetchOk rep.cfg with
    | false =>
      rw [hf] at he
      simp at he
      simp [he, exportPhaseEvent]
    | true =>
      rw [hf] at he
      cases hv : o.revision rep.cfg with
      | none => rw [hv] at he; simp at he; simp [he, exportPhaseEvent]
      | some vers =>
        rw [hv] at he
        simp at he
        rcases he with he | he | he
        · simp [he, exportPhaseEvent]
        · simp [he, exportPhaseEvent]
        · exact ih _ e he

/-- When handle construction and connectivity succeed for every entry,
the first export loop emits, for each entry in list order, the handle
construction followed by the connectivity check of that entry before
anything of the next entry, and succeeds. -/
theorem runExports_trace (o : Oracle) (binds : List (String × String)) :
    ∀ (exports : List (String × ExportConfig)) (reps0 : List (String × Repo)),
      (∀ p ∈ exports, o.newOk (substExportEntry binds p.1 p.2).2 = true ∧
        o.connected (substExportEntry binds p.1 p.2).2 = true) →
      (runExports o binds exports reps0).2 =
        exports.flatMap (fun p =>
          [Event.initRepo (substExportEntry binds p.1 p.2).1,
           Event.ping (substExportEntry binds p.1 p.2).1]) ∧
      ∃ reps, (runExports o binds exports reps0).1 = Except.ok reps := by
  intro exports
  induction exports with
  | nil => intro reps0 _; exact ⟨rfl, _, rfl⟩
  | cons p rest ih =>
    obtain ⟨name, expo⟩ := p
    intro reps0 h
    have hp := h (name, expo) (List.mem_cons_self _ _)
    have hr := ih (insertRepo reps0 (substExportEntry binds name expo).1
        ⟨(substExportEntry binds name expo).2⟩)
      (fun q hq => h q (List.mem_cons_of_mem _ hq))
    constructor
    · simp only [runExports, hp.1, hp.2]
      simp [hr.1]
    · simp only [runExports, hp.1, hp.2]
      simpa using hr.2

/-- When fetching and revision reporting succeed for every stored
handle, the second export loop emits, for each handle in list order,
the fetch followed by the revision query of that handle before anything
of the next handle, and succeeds. -/
theorem runFetch_trace (o : Oracle) :
    ∀ (reps : List (String × Repo)) (exports : List (String × ExportConfig)),
      (∀ r ∈ reps, o.fetchOk r.2.cfg = true ∧ (o.revision r.2.cfg).isSome = true) →
      (runFetch o reps exports).events =
        reps.flatMap (fun r =>
          [Event.fetch r.1 (r.2.Exporter o.fsExists),
           Event.queryRev r.1 ((o.revision r.2.cfg).getD "")]) ∧
      (runFetch o reps exports).err = none := by
  intro reps
  induction reps with
  | nil => intro exports _; exact ⟨rfl, rfl⟩
  | cons r rest ih =>
    obtain ⟨name, rep⟩ := r
    intro exports h
    have hp := h (name, rep) (List.mem_cons_self _ _)
    obtain ⟨vers, hv⟩ := Option.isSome_iff_exists.mp hp.2
    have hr := ih (match lookupExport exports name with
        | some expo => storeExport exports name { expo with Last := vers }
        | none => exports)
      (fun q hq => h q (List.mem_cons_of_mem _ hq))
    constructor
    · simp only [runFetch, hp.1, hv]
      cases hl : lookupExport exports name with
      | some expo =>
        rw [hl] at hr
        simp [hr.1, hv]
      | none =>
        rw [hl] at hr
        simp [hr.1, hv]
    · simp only [runFetch, hp.1, hv]
      cases hl : lookupExport exports name with
      | some expo => rw [hl] at hr; simp [hr.2]
      | none => rw [hl] at hr; simp [hr.2]

/-- C1 (amended): with the fail-fast mode active, a clean second export
phase and no revision drift, the run terminates with the distinguished
up-to-date condition immediately after the shell-environment commit:
the trace ends at the commit event, and neither the configuration
write nor any copy or archive action occurs. -/
theorem claim1_theorem (o : Oracle) (binds : List (String × String)) (cfg : Config)
    (reps : List (String × Repo)) (ev1 : List Event)
    (hE : runExports o binds cfg.Export [] = (Except.ok reps, ev1))
    (hF : (runFetch o reps cfg.Export).err = none)
    (hD : (runFetch o reps cfg.Export).didUpdate = false)
    (hC : o.commitOk = true) :
    run o true binds cfg =
      (some RunError.upToDate,
       ev1 ++ (runFetch o reps cfg.Export).events ++ [Event.commitEnv]) ∧
    Event.writeConfig ∉ (run o true binds cfg).2 ∧
    (∀ s d, Event.copy s d ∉ (run o true binds cfg).2) ∧
    (∀ p a, Event.archive p a ∉ (run o true binds cfg).2) := by
  have hrun : run o true binds cfg =
      (some RunError.upToDate,
       ev1 ++ (runFetch o reps cfg.Export).events ++ [Event.commitEnv]) := by
    simp [run, hE, hF, hC, hD]
  have hev1 : ∀ e ∈ ev1, exportPhaseEvent e = true := by
    have h := runExports_events_phase o binds cfg.Export []
    rw [hE] at h
    exact h
  have hev2 : ∀ e ∈ (runFetch o reps cfg.Export).events, exportPhaseEvent e = true :=
    runFetch_events_phase o reps cfg.Export
  refine ⟨hrun, ?_, ?_, ?_⟩
  · rw [hrun]
    intro hmem
    simp at hmem
    rcases hmem with h | h
    · exact absurd (hev1 _ h) (by decide)
    · exact absurd (hev2 _ h) (by decide)
  · intro s d
    rw [hrun]
    intro hmem
    simp at hmem
    rcases hmem with h | h
    · exact absurd (hev1 _ h) (by simp [exportPhaseEvent])
    · exact absurd (hev2 _ h) (by simp [exportPhaseEvent])
  · intro p a
    rw [hrun]
    intro hmem
    simp at hmem
    rcases hmem with h | h
    · exact absurd (hev1 _ h) (by simp [exportPhaseEvent])
    · exact absurd (hev2 _ h) (by simp [exportPhaseEvent])

/-- C1: the claim places the up-to-date short circuit after the
configuration write; on a concrete up-to-date run the distinguished
condition is returned while the trace contains the environment commit
but no configuration-write action, so the short circuit happens before
Config.Write, not after it. -/
theorem claim1_counterexample :
    (run allOkOracle true [] ⟨[("A", ⟨"r", "p", "l", "5"⟩)], []⟩).1 =
      some RunError.upToDate ∧
    Event.commitEnv ∈ (run allOkOracle true [] ⟨[("A", ⟨"r", "p", "l", "5"⟩)], []⟩).2 ∧
    Event.writeConfig ∉ (run allOkOracle true [] ⟨[("A", ⟨"r", "p", "l", "5"⟩)], []⟩).2 := by
  decide

/-- Witness for C1 on a one-entry configuration whose stored revision
matches the fetched revision. -/
theorem claim1_witness :
    (run allOkOracle true [] ⟨[("A", ⟨"r", "p", "l", "5"⟩)], []⟩).1 =
      some RunError.upToDate ∧
    (∀ s d, Event.copy s d ∉
      (run allOkOracle true [] ⟨[("A", ⟨"r", "p", "l", "5"⟩)], []⟩).2) := by
  have h := claim1_theorem allOkOracle [] ⟨[("A", ⟨"r", "p", "l", "5"⟩)], []⟩
    [("A", ⟨⟨"r", "p", "l", "5"⟩⟩)] [Event.initRepo "A", Event.ping "A"]
    rfl (by decide) (by decide) rfl
  exact ⟨by rw [h.1], h.2.2.1⟩

/-- C3 (amended): export entries are processed sequentially in two
passes rather than one: the first loop performs handle construction and
connectivity checking entry by entry in order, the second loop performs
fetch and revision query handle by handle in order, and within each
loop one entry's steps finish before the next entry's begin; between
the loops, however, every entry's handle construction precedes every
entry's fetch. -/
theorem claim3_theorem (o : Oracle) (binds : List (String × String))
    (exports : List (String × ExportConfig)) (reps0 reps : List (String × Repo)) :
    ((∀ p ∈ exports, o.newOk (substExportEntry binds p.1 p.2).2 = true ∧
        o.connected (substExportEntry binds p.1 p.2).2 = true) →
      (runExports o binds exports reps0).2 =
        exports.flatMap (fun p =>
          [Event.initRepo (substExportEntry binds p.1 p.2).1,
           Event.ping (substExportEntry binds p.1 p.2).1])) ∧
    ((∀ r ∈ reps, o.fetchOk r.2.cfg = true ∧ (o.revision r.2.cfg).isSome = true) →
      ∀ exps, (runFetch o reps exps).events =
        reps.flatMap (fun r =>
          [Event.fetch r.1 (r.2.Exporter o.fsExists),
           Event.queryRev r.1 ((o.revision r.2.cfg).getD "")])) :=
  ⟨fun h => (runExports_trace o binds exports reps0 h).1,
   fun h exps => (runFetch_trace o reps exps h).1⟩

/-- C3: the claim asserts that one entry's handle construction,
connectivity check, fetch and revision query all complete before any of
those steps begins for the next entry; on a two-entry configuration the
second entry's handle construction (trace position 2) precedes the
first entry's fetch (trace position 4). -/
theorem claim3_counterexample :
    (run allOkOracle false []
      ⟨[("A", ⟨"r", "p", "l", "1"⟩), ("B", ⟨"r2", "q", "m", "2"⟩)], []⟩).2 =
      [Event.initRepo "A", Event.ping "A", Event.initRepo "B", Event.ping "B",
       Event.fetch "A" ExportMode.UpdateMode, Event.queryRev "A" "5",
       Event.fetch "B" ExportMode.UpdateMode, Event.queryRev "B" "5",
       Event.commitEnv, Event.writeConfig] ∧
    (run allOkOracle false []
      ⟨[("A", ⟨"r", "p", "l", "1"⟩), ("B", ⟨"r2", "q", "m", "2"⟩)], []⟩).2[2]? =
      some (Event.initRepo "B") ∧
    (run allOkOracle false []
      ⟨[("A", ⟨"r", "p", "l", "1"⟩), ("B", ⟨"r2", "q", "m", "2"⟩)], []⟩).2[4]? =
      some (Event.fetch "A" ExportMode.UpdateMode) := by
  decide

/-- Witness for C3 on a two-entry configuration with every collaborator
succeeding. -/
theorem claim3_witness :
    (runExports allOkOracle []
      [("A", ⟨"r", "p", "l", "1"⟩), ("B", ⟨"r2", "q", "m", "2"⟩)] []).2 =
      [Event.initRepo "A", Event.ping "A", Event.initRepo "B", Event.ping "B"] ∧
    (runFetch allOkOracle
      [("A", ⟨⟨"r", "p", "l", "1"⟩⟩), ("B", ⟨⟨"r2", "q", "m", "2"⟩⟩)]
      [("A", ⟨"r", "p", "l", "1"⟩), ("B", ⟨"r2", "q", "m", "2"⟩)]).events =
      [Event.fetch "A" ExportMode.UpdateMode, Event.queryRev "A" "5",
       Event.fetch "B" ExportMode.UpdateMode, Event.queryRev "B" "5"] := by
  have h := claim3_theorem allOkOracle []
    [("A", ⟨"r", "p", "l", "1"⟩), ("B", ⟨"r2", "q", "m", "2"⟩)] []
    [("A", ⟨⟨"r", "p", "l", "1"⟩⟩), ("B", ⟨⟨"r2", "q", "m", "2"⟩⟩)]
  exact ⟨(h.1 (by decide)).trans (by decide),
         (h.2 (by decide) _).trans (by decide)⟩

/-- The first non-compiling ignore pattern of a list produces the
InvalidIgnorePattern error carrying that pattern. -/
theorem skipFunc_error (compiles : String → Bool) :
    ∀ l : List String, (∃ p ∈ l, compiles p = false) →
      ∃ p0, compiles p0 = false ∧ p0 ∈ l ∧
        skipFunc compiles l = Except.error (RunError.invalidIgnorePattern p0) := by
  intro l
  induction l with
  | nil => rintro ⟨p, hp, _⟩; simp at hp
  | cons q qs ih =>
    intro hb
    cases hq : compiles q with
    | false =>
      exact ⟨q, hq, List.mem_cons_self _ _, by simp [skipFunc, hq]⟩
    | true =>
      have hqs : ∃ p ∈ qs, compiles p = false := by
        obtain ⟨p, hp, hpf⟩ := hb
        rcases List.mem_cons.mp hp with rfl | hp
        · rw [hq] at hpf; cases hpf
        · exact ⟨p, hp, hpf⟩
      obtain ⟨p0, h1, h2, h3⟩ := ih hqs
      exact ⟨p0, h1, List.mem_cons_of_mem _ h2, by simp [skipFunc, hq, h3]⟩

/-- A copy operation declaring a source and destination whose
substituted ignore set contains a non-compiling pattern aborts with
InvalidIgnorePattern and performs no copy action. -/
theorem runCopyOp_badPattern (o : Oracle) (binds : List (String × String))
    (srcP pkgP : String) (op : IncludePathConfig)
    (hg : op.Copy.Repo ≠ "" ∧ op.Copy.Package ≠ "")
    (hb : ∃ p ∈ op.Copy.Ignore.map (applySubst binds), o.compiles p = false) :
    ∃ p0, o.compiles p0 = false ∧ p0 ∈ op.Copy.Ignore.map (applySubst binds) ∧
      runCopyOp o binds srcP pkgP op =
        (Except.error (RunError.invalidIgnorePattern p0), []) := by
  obtain ⟨p0, h1, h2, h3⟩ := skipFunc_error o.compiles _ hb
  refine ⟨p0, h1, h2, ?_⟩
  simp only [runCopyOp, hg.1, hg.2, copyOptions, h3]
  simp
  exact ⟨hg.1, hg.2⟩

/-- Splitting the operation loop around a prefix of succeeding
operations: the prefix contributes its events and the verdict is that
of the remaining operations. -/
theorem runOps_append_ok (o : Oracle) (binds : List (String × String))
    (srcP pkgP : String) :
    ∀ (pre l : List IncludePathConfig),
      (∀ op ∈ pre, (runCopyOp o binds srcP pkgP op).1 = Except.ok ()) →
      runOps o binds srcP pkgP (pre ++ l) =
        ((runOps o binds srcP pkgP l).1,
         pre.flatMap (fun op => (runCopyOp o binds srcP pkgP op).2) ++
           (runOps o binds srcP pkgP l).2) := by
  intro pre
  induction pre with
  | nil => intro l _; simp
  | cons op pre ih =>
    intro l h
    have hop := h op (List.mem_cons_self _ _)
    rcases hr : runCopyOp o binds srcP pkgP op with ⟨r1, ev⟩
    rw [hr] at hop
    simp at hop
    subst hop
    simp only [List.cons_append, runOps, hr, List.append_eq]
    rw [ih l (fun q hq => h q (List.mem_cons_of_mem _ hq))]
    simp [hr]

/-- Resolving a one-pair include group yields the pair's operation
list. -/
theorem resolveInclude_single (binds : List (String × String))
    (reps : List (String × Repo)) (k : String) (ops : List IncludePathConfig) :
    (resolveInclude binds reps [(k, ops)]).2 = ops := by
  simp only [resolveInclude, List.foldl_cons, List.foldl_nil]
  cases lookupRepo reps (applySubst binds k) <;> rfl

/-- C4: when the package phase reaches a copy operation (the export
phase, the commit and the write succeeded, and every operation before
it in its group succeeded) whose substituted ignore set contains a
pattern the regexp library rejects, the run aborts with
InvalidIgnorePattern carrying the first such pattern, no copy action is
performed for that operation, and the trace still carries the fetch and
revision-query actions of every export entry, in order. -/
theorem claim4_theorem (o : Oracle) (binds : List (String × String))
    (exps : List (String × ExportConfig)) (pkgName srcKey : String)
    (roster : Bool) (comp : CompressConfig)
    (moreGroups : List (List (String × List IncludePathConfig)))
    (morePkgs : List (String × PackageConfig))
    (pre rest : List IncludePathConfig) (badOp : IncludePathConfig)
    (reps : List (String × Repo)) (ev1 : List Event)
    (hE : runExports o binds exps [] = (Except.ok reps, ev1))
    (hFetch : ∀ r ∈ reps, o.fetchOk r.2.cfg = true ∧ (o.revision r.2.cfg).isSome = true)
    (hC : o.commitOk = true) (hW : o.writeOk = true)
    (hg : badOp.Copy.Repo ≠ "" ∧ badOp.Copy.Package ≠ "")
    (hb : ∃ p ∈ badOp.Copy.Ignore.map (applySubst binds), o.compiles p = false)
    (hPre : ∀ op ∈ pre,
      (runCopyOp o binds
        (resolveInclude binds reps [(srcKey, pre ++ badOp :: rest)]).1
        (applySubst binds pkgName) op).1 = Except.ok ()) :
    ∃ p0, o.compiles p0 = false ∧
      p0 ∈ badOp.Copy.Ignore.map (applySubst binds) ∧
      run o false binds
        ⟨exps, (pkgName, ⟨roster, [(srcKey, pre ++ badOp :: rest)] :: moreGroups,
          comp⟩) :: morePkgs⟩ =
        (some (RunError.invalidIgnorePattern p0),
         ev1 ++ (runFetch o reps exps).events ++
           [Event.commitEnv, Event.writeConfig] ++
           pre.flatMap (fun op => (runCopyOp o binds
             (resolveInclude binds reps [(srcKey, pre ++ badOp :: rest)]).1
             (applySubst binds pkgName) op).2)) ∧
      (runCopyOp o binds
        (resolveInclude binds reps [(srcKey, pre ++ badOp :: rest)]).1
        (applySubst binds pkgName) badOp).2 = [] ∧
      (runFetch o reps exps).events =
        reps.flatMap (fun r =>
          [Event.fetch r.1 (r.2.Exporter o.fsExists),
           Event.queryRev r.1 ((o.revision r.2.cfg).getD "")]) := by
  obtain ⟨p0, h1, h2, h3⟩ := runCopyOp_badPattern o binds
    (resolveInclude binds reps [(srcKey, pre ++ badOp :: rest)]).1
    (applySubst binds pkgName) badOp hg hb
  have hF := runFetch_trace o reps exps hFetch
  have hOps : runOps o binds
      (resolveInclude binds reps [(srcKey, pre ++ badOp :: rest)]).1
      (applySubst binds pkgName) (pre ++ badOp :: rest) =
      (Except.error (RunError.invalidIgnorePattern p0),
       pre.flatMap (fun op => (runCopyOp o binds
         (resolveInclude binds reps [(srcKey, pre ++ badOp :: rest)]).1
         (applySubst binds pkgName) op).2)) := by
    rw [runOps_append_ok o binds _ _ pre (badOp :: rest) hPre]
    simp only [runOps, h3]
    simp
  have hPkgs : runPackages o binds reps
      ((pkgName, ⟨roster, [(srcKey, pre ++ badOp :: rest)] :: moreGroups,
        comp⟩) :: morePkgs) =
      (Except.error (RunError.invalidIgnorePattern p0),
       pre.flatMap (fun op => (runCopyOp o binds
         (resolveInclude binds reps [(srcKey, pre ++ badOp :: rest)]).1
         (applySubst binds pkgName) op).2)) := by
    simp only [runPackages, runPackage, runIncludes, resolveInclude_single, hOps]
  refine ⟨p0, h1, h2, ?_, by rw [h3], hF.1⟩
  simp only [run, hE, hF.2, hC, hW, hPkgs]
  simp

/-- Witness for C4: one export entry fetched at revision 5, then a
package whose single copy operation declares the ignore pattern
consisting of one opening parenthesis, which the regexp library
rejects; the run aborts with InvalidIgnorePattern of that pattern. -/
theorem claim4_witness :
    (run badPatternOracle false []
      ⟨[("A", ⟨"r", "p", "l", "1"⟩)],
       [("out", ⟨false, [[("A", [⟨⟨"src", "dst", "", "", ["("]⟩⟩])]],
         ⟨"", false, "", 0⟩⟩)]⟩).1 =
      some (RunError.invalidIgnorePattern "(") := by
  obtain ⟨p0, h1, h2, h3, h4, h5⟩ := claim4_theorem badPatternOracle []
    [("A", ⟨"r", "p", "l", "1"⟩)] "out" "A" false ⟨"", false, "", 0⟩ [] []
    [] [] ⟨⟨"src", "dst", "", "", ["("]⟩⟩
    [("A", ⟨⟨"r", "p", "l", "1"⟩⟩)] [Event.initRepo "A", Event.ping "A"]
    rfl (by decide) rfl rfl ⟨by decide, by decide⟩
    ⟨"(", by decide, by decide⟩ (by simp)
  have hp : p0 = "(" := by simpa using h2
  subst hp
  simp only [List.nil_append] at h3
  rw [h3]

/-- Appending past a prefix that wholly satisfies the predicate takes
the prefix and continues into the suffix. -/
theorem takeWhile_append_all (p : Char → Bool) :
    ∀ (a b : List Char), (∀ c ∈ a, p c = true) →
      (a ++ b).takeWhile p = a ++ b.takeWhile p := by
  intro a
  induction a with
  | nil => intro b _; simp
  | cons c cs ih =>
    intro b h
    have hc := h c (List.mem_cons_self _ _)
    simp only [List.cons_append, List.takeWhile_cons, hc, if_true]
    rw [ih b (fun x hx => h x (List.mem_cons_of_mem _ hx))]

/-- Dropping past a prefix that wholly satisfies the predicate
continues into the suffix. -/
theorem dropWhile_append_all (p : Char → Bool) :
    ∀ (a b : List Char), (∀ c ∈ a, p c = true) →
      (a ++ b).dropWhile p = b.dropWhile p := by
  intro a
  induction a with
  | nil => intro b _; simp
  | cons c cs ih =>
    intro b h
    have hc := h c (List.mem_cons_self _ _)
    simp only [List.cons_append, List.dropWhile_cons, hc, if_true]
    exact ih b (fun x hx => h x (List.mem_cons_of_mem _ hx))

/-- A list is a Boolean prefix of itself followed by anything. -/
theorem isPrefixOf_append_self : ∀ (a b : List Char), a.isPrefixOf (a ++ b) = true := by
  intro a
  induction a with
  | nil => intro b; simp [List.isPrefixOf]
  | cons c cs ih => intro b; simp [List.isPrefixOf, ih]

/-- The letter and whitespace classes of the urlProtocol pattern are
disjoint. -/
theorem alpha_not_space (c : Char) (h : isAsciiAlpha c = true) : isPerlSpace c = false := by
  simp [isAsciiAlpha] at h
  simp [isPerlSpace]
  omega

/-- On a string of the shape whitespace, letters, colon-slash-slash,
remainder, the anchored protocol matcher finds exactly the prefix up to
and including the double slash. -/
theorem matchProtocol_of_decomp (ws L rest : List Char)
    (hws : ∀ c ∈ ws, isPerlSpace c = true) (hL0 : L ≠ [])
    (hL : ∀ c ∈ L, isAsciiAlpha c = true) :
    matchProtocol (String.mk (ws ++ (L ++ (':' :: '/' :: '/' :: rest)))) =
      some (ws.length + L.length + 3) := by
  obtain ⟨c0, L', rfl⟩ : ∃ c0 L', L = c0 :: L' := by
    cases L with
    | nil => exact absurd rfl hL0
    | cons x xs => exact ⟨x, xs, rfl⟩
  have hc0 := hL c0 (List.mem_cons_self _ _)
  have h1 : ((ws ++ ((c0 :: L') ++ (':' :: '/' :: '/' :: rest)))).takeWhile isPerlSpace
      = ws := by
    rw [takeWhile_append_all _ ws _ hws]
    simp [List.takeWhile_cons, alpha_not_space c0 hc0]
  have h2 : ((ws ++ ((c0 :: L') ++ (':' :: '/' :: '/' :: rest)))).dropWhile isPerlSpace
      = (c0 :: L') ++ (':' :: '/' :: '/' :: rest) := by
    rw [dropWhile_append_all _ ws _ hws]
    simp [List.dropWhile_cons, alpha_not_space c0 hc0]
  have h3 : ((c0 :: L') ++ (':' :: '/' :: '/' :: rest)).takeWhile isAsciiAlpha
      = c0 :: L' := by
    rw [takeWhile_append_all _ (c0 :: L') _ hL]
    have : isAsciiAlpha ':' = false := by decide
    simp [List.takeWhile_cons, this]
  have h4 : (String.toList "://").isPrefixOf
      (((c0 :: L') ++ (':' :: '/' :: '/' :: rest)).drop (c0 :: L').length) = true := by
    rw [List.drop_left]
    exact isPrefixOf_append_self [':', '/', '/'] rest
  show (let cs := (String.mk (ws ++ ((c0 :: L') ++ (':' :: '/' :: '/' :: rest)))).toList
        let ws2 := cs.takeWhile isPerlSpace
        let afterWs := cs.dropWhile isPerlSpace
        let letters := afterWs.takeWhile isAsciiAlpha
        if letters.isEmpty then none
        else if (String.toList "://").isPrefixOf (afterWs.drop letters.length) then
          some (ws2.length + letters.length + 3)
        else none) = some (ws.length + (c0 :: L').length + 3)
  simp only [String.toList, h1, h2, h3, h4]
  simp

/-- String construction distributes over list append. -/
theorem stringMk_append (a b : List Char) :
    String.mk (a ++ b) = String.mk a ++ String.mk b := rfl

/-- Rebuilding a string from its character list is the identity. -/
theorem stringMk_toList (s : String) : String.mk s.toList = s := rfl

/-- The protocol separator as a string. -/
theorem colonSlashSlash : String.mk [':', '/', '/'] = "://" := rfl

/-- Dropping the length of the satisfying prefix is dropping the
satisfying prefix. -/
theorem drop_length_takeWhile (p : Char → Bool) :
    ∀ l : List Char, l.drop (l.takeWhile p).length = l.dropWhile p := by
  intro l
  induction l with
  | nil => rfl
  | cons c cs ih =>
    cases hc : p c with
    | true => simp [List.takeWhile_cons, List.dropWhile_cons, hc, ih]
    | false => simp [List.takeWhile_cons, List.dropWhile_cons, hc]

/-- A Boolean prefix can be split off the list it prefixes. -/
theorem isPrefixOf_exists : ∀ (a b : List Char), a.isPrefixOf b = true →
    ∃ t, b = a ++ t := by
  intro a
  induction a with
  | nil => intro b _; exact ⟨b, rfl⟩
  | cons c cs ih =>
    intro b h
    cases b with
    | nil => simp [List.isPrefixOf] at h
    | cons d ds =>
      simp only [List.isPrefixOf, Bool.and_eq_true, beq_iff_eq] at h
      obtain ⟨t, ht⟩ := ih ds h.2
      exact ⟨t, by simp [h.1, ht]⟩

/-- A remote locator of protocol shape keeps its matched prefix
verbatim, the double slash included, in front of the cleaned join of
the remainder with the sub-path. -/
theorem claim10_part1 (e : ExportConfig) (ws L rest : List Char)
    (hRepo : e.Repo.toList = ws ++ (L ++ (':' :: '/' :: '/' :: rest)))
    (hws : ∀ c ∈ ws, isPerlSpace c = true) (hL0 : L ≠ [])
    (hL : ∀ c ∈ L, isAsciiAlpha c = true) :
    e.Url = String.mk (ws ++ L) ++ "://" ++ goJoin2 (String.mk rest) e.Path := by
  have hrepo : e.Repo = String.mk (ws ++ (L ++ (':' :: '/' :: '/' :: rest))) := by
    rw [← hRepo, stringMk_toList]
  have hm := matchProtocol_of_decomp ws L rest hws hL0 hL
  have hshape : ws ++ (L ++ (':' :: '/' :: '/' :: rest)) =
      (ws ++ L ++ [':', '/', '/']) ++ rest := by
    simp [List.append_assoc]
  have hlen : (ws ++ L ++ [':', '/', '/']).length = ws.length + L.length + 3 := by
    simp [List.length_append]
    omega
  simp only [ExportConfig.Url, hrepo, hm]
  rw [show (String.mk (ws ++ (L ++ (':' :: '/' :: '/' :: rest)))).toList =
      (ws ++ L ++ [':', '/', '/']) ++ rest from by rw [← hshape]; rfl]
  rw [List.take_left' hlen, List.drop_left' hlen]
  rw [show ws ++ L ++ [':', '/', '/'] = (ws ++ L) ++ [':', '/', '/'] from rfl]
  rw [stringMk_append, colonSlashSlash]

/-- A successful protocol match exhibits the whitespace, letters,
separator, remainder decomposition of the locator, with the match
ending right after the double slash. -/
theorem claim10_part3 (e : ExportConfig) (i : Nat)
    (h : matchProtocol e.Repo = some i) :
    ∃ ws L rest, e.Repo.toList = ws ++ (L ++ (':' :: '/' :: '/' :: rest)) ∧
      (∀ c ∈ ws, isPerlSpace c = true) ∧ L ≠ [] ∧
      (∀ c ∈ L, isAsciiAlpha c = true) ∧ i = ws.length + L.length + 3 := by
  simp only [matchProtocol] at h
  by_cases hemp : ((e.Repo.toList.dropWhile isPerlSpace).takeWhile isAsciiAlpha).isEmpty = true
  · rw [if_pos hemp] at h; cases h
  · rw [if_neg hemp] at h
    by_cases hpre : (String.toList "://").isPrefixOf
        ((e.Repo.toList.dropWhile isPerlSpace).drop
          ((e.Repo.toList.dropWhile isPerlSpace).takeWhile isAsciiAlpha).length) = true
    · rw [if_pos hpre] at h
      obtain ⟨t, ht⟩ := isPrefixOf_exists _ _ hpre
      refine ⟨e.Repo.toList.takeWhile isPerlSpace,
        (e.Repo.toList.dropWhile isPerlSpace).takeWhile isAsciiAlpha, t, ?_, ?_, ?_, ?_, ?_⟩
      · rw [drop_length_takeWhile] at ht
        conv_lhs => rw [← List.takeWhile_append_dropWhile (p := isPerlSpace) (l := e.Repo.toList)]
        congr 1
        conv_lhs => rw [← List.takeWhile_append_dropWhile (p := isAsciiAlpha)
          (l := e.Repo.toList.dropWhile isPerlSpace)]
        rw [ht]
        rfl
      · intro c hc; exact List.mem_takeWhile_imp hc
      · intro hnil; rw [hnil] at hemp; simp at hemp
      · intro c hc; exact List.mem_takeWhile_imp hc
      · exact (Option.some.injEq _ _ ▸ h).symm
    · rw [if_neg hpre] at h; cases h

/-- C10: when the remote locator begins with optional whitespace,
letters and the protocol separator, Url keeps that prefix verbatim —
the double slash is never collapsed — in front of the path-join of the
remainder with the sub-path; a locator with no such prefix is joined
with the sub-path directly; and every successful match of the protocol
pattern arises from such a decomposition. -/
theorem claim10_theorem (e : ExportConfig) :
    (∀ ws L rest : List Char,
      e.Repo.toList = ws ++ (L ++ (':' :: '/' :: '/' :: rest)) →
      (∀ c ∈ ws, isPerlSpace c = true) → L ≠ [] →
      (∀ c ∈ L, isAsciiAlpha c = true) →
      e.Url = String.mk (ws ++ L) ++ "://" ++ goJoin2 (String.mk rest) e.Path) ∧
    (matchProtocol e.Repo = none → e.Url = goJoin2 e.Repo e.Path) ∧
    (∀ i, matchProtocol e.Repo = some i →
      ∃ ws L rest, e.Repo.toList = ws ++ (L ++ (':' :: '/' :: '/' :: rest)) ∧
        (∀ c ∈ ws, isPerlSpace c = true) ∧ L ≠ [] ∧
        (∀ c ∈ L, isAsciiAlpha c = true) ∧ i = ws.length + L.length + 3) :=
  ⟨fun ws L rest h1 h2 h3 h4 => claim10_part1 e ws L rest h1 h2 h3 h4,
   fun h => by simp [ExportConfig.Url, h],
   fun i h => claim10_part3 e i h⟩

/-- Witness for C10: a locator with leading whitespace and a protocol
prefix keeps the double slash while the remainder is cleaned, and a
protocol-free locator is joined and cleaned directly. -/
theorem claim10_witness :
    urlWitnessA.Url = " svn://host/x/y" ∧ urlWitnessB.Url = "a/b/y" := by
  have h1 := (claim10_theorem urlWitnessA).1
    [' '] ['s', 'v', 'n'] "host//x".toList (by decide) (by decide) (by decide) (by decide)
  have h2 := (claim10_theorem urlWitnessB).2.1 (by decide)
  exact ⟨h1.trans (by decide), h2.trans (by decide)⟩

/-- A character of the identifier class is an upper-case letter, a digit, or the underscore, by code point. -/
theorem identChar_elim (c : Char) (h : identChar c = true) :
    (65 ≤ c.toNat ∧ c.toNat ≤ 90) ∨ (48 ≤ c.toNat ∧ c.toNat ≤ 57) ∨ c.toNat = 95 := by
  simp [identChar, isUpperAZ, isDigit09] at h
  rcases h with (h | h) | h
  · exact Or.inl h
  · exact Or.inr (Or.inl h)
  · subst h
    exact Or.inr (Or.inr (by decide))

/-- Upper-casing fixes identifier-class characters. -/
theorem goUpperChar_ident (c : Char) (h : identChar c = true) : goUpperChar c = c := by
  have hb := identChar_elim c h
  have hc : ¬((97 ≤ c.toNat && c.toNat ≤ 122) = true) := by
    simp
    omega
  simp [goUpperChar, hc]

/-- Identifier-class characters are not whitespace. -/
theorem identChar_not_space (c : Char) (h : identChar c = true) : isGoSpace c = false := by
  have hb := identChar_elim c h
  simp [isGoSpace]
  omega

/-- The underscore belongs to the identifier class. -/
theorem identChar_underscore : identChar '_' = true := by decide

/-- A legal first character of a key is in the identifier class. -/
theorem keyStart_ident (c : Char) (h : keyStartChar c = true) : identChar c = true := by
  simp only [keyStartChar, Bool.or_eq_true] at h
  rcases h with h | h
  · simp [identChar, h]
  · have hc : c = '_' := by simpa using h
    rw [hc]
    decide

/-- The run replacement emits only identifier-class characters. -/
theorem replRunsAux_allIdent : ∀ (b : Bool) (l : List Char),
    allIdent (replRunsAux b l) = true := by
  intro b l
  induction l generalizing b with
  | nil => simp [replRunsAux, allIdent]
  | cons c cs ih =>
    cases hc : identChar c with
    | true =>
      simp only [replRunsAux, hc, if_true]
      simp only [allIdent, List.all_cons, hc, Bool.true_and]
      exact ih false
    | false =>
      cases b with
      | true =>
        simp only [replRunsAux, hc, Bool.false_eq_true, if_false, if_true]
        exact ih true
      | false =>
        simp only [replRunsAux, hc, Bool.false_eq_true, if_false]
        simp only [allIdent, List.all_cons, identChar_underscore, Bool.true_and]
        exact ih true

/-- The non-identifier replacement emits only identifier-class characters. -/
theorem replNonidents_allIdent (l : List Char) :
    allIdent (replNonidents l) = true := by
  cases l with
  | nil => rfl
  | cons c cs =>
    have h2 : (replRunsAux false cs).all identChar = true := replRunsAux_allIdent false cs
    have hhead : identChar (if keyStartChar c then c else '_') = true := by
      cases hk : keyStartChar c with
      | true =>
        rw [if_pos rfl]
        exact keyStart_ident c hk
      | false =>
        rw [if_neg (by simp)]
        exact identChar_underscore
    simp only [replNonidents, allIdent, List.all_cons, hhead, Bool.true_and]
    exact h2

/-- Collapsing underscore runs preserves the identifier alphabet. -/
theorem collapseAux_allIdent : ∀ (b : Bool) (l : List Char),
    allIdent l = true → allIdent (collapseAux b l) = true := by
  intro b l
  induction l generalizing b with
  | nil => intro _; cases b <;> rfl
  | cons c cs ih =>
    intro h
    simp only [allIdent, List.all_cons, Bool.and_eq_true] at h
    by_cases hc : c = '_'
    · subst hc
      cases b with
      | true =>
        show allIdent (collapseAux true cs) = true
        exact ih true h.2
      | false =>
        show allIdent ('_' :: collapseAux true cs) = true
        simp only [allIdent, List.all_cons, identChar_underscore, Bool.true_and]
        exact ih true h.2
    · simp only [collapseAux, if_neg hc]
      simp only [allIdent, List.all_cons, Bool.and_eq_true]
      exact ⟨h.1, ih false h.2⟩

/-- While inside an underscore run, the collapse never emits a leading underscore. -/
theorem collapseAux_true_head : ∀ (l : List Char) (c : Char),
    (collapseAux true l).head? = some c → c ≠ '_' := by
  intro l
  induction l with
  | nil => intro c h; simp [collapseAux] at h
  | cons d ds ih =>
    intro c h
    by_cases hd : d = '_'
    · subst hd
      have h2 : (collapseAux true ds).head? = some c := h
      exact ih c h2
    · simp only [collapseAux, if_neg hd] at h
      simp only [List.head?_cons, Option.some.injEq] at h
      rw [← h]
      exact hd

/-- Prepending a non-underscore preserves the no-double-underscore shape. -/
theorem noDouble_cons_ne (c : Char) (t : List Char) (hc : c ≠ '_')
    (ht : noDoubleUnderscore t = true) : noDoubleUnderscore (c :: t) = true := by
  cases t with
  | nil => rfl
  | cons d ds =>
    simp only [noDoubleUnderscore, Bool.and_eq_true]
    constructor
    · simp [hc]
    · exact ht

/-- Prepending an underscore to a list that does not start with one preserves the no-double-underscore shape. -/
theorem noDouble_cons_underscore (t : List Char) (hh : t.head? ≠ some '_')
    (ht : noDoubleUnderscore t = true) : noDoubleUnderscore ('_' :: t) = true := by
  cases t with
  | nil => rfl
  | cons d ds =>
    simp only [noDoubleUnderscore, Bool.and_eq_true]
    constructor
    · simp at hh
      simp [hh]
    · exact ht

/-- The output of the underscore collapse has no underscore runs. -/
theorem collapseAux_noDouble : ∀ (b : Bool) (l : List Char),
    noDoubleUnderscore (collapseAux b l) = true := by
  intro b l
  induction l generalizing b with
  | nil => cases b <;> rfl
  | cons c cs ih =>
    by_cases hc : c = '_'
    · subst hc
      cases b with
      | true =>
        show noDoubleUnderscore (collapseAux true cs) = true
        exact ih true
      | false =>
        show noDoubleUnderscore ('_' :: collapseAux true cs) = true
        refine noDouble_cons_underscore _ ?_ (ih true)
        intro h
        exact collapseAux_true_head cs '_' h rfl
    · simp only [collapseAux, if_neg hc]
      exact noDouble_cons_ne c _ hc (ih false)

/-- Dropping a prefix preserves a character-wise invariant. -/
theorem dropWhile_all (p q : Char → Bool) :
    ∀ l : List Char, l.all q = true → (l.dropWhile p).all q = true := by
  intro l
  induction l with
  | nil => intro _; rfl
  | cons c cs ih =>
    intro h
    simp only [List.all_cons, Bool.and_eq_true] at h
    cases hp : p c with
    | true =>
      simp only [List.dropWhile_cons, hp, if_true]
      exact ih h.2
    | false =>
      simp only [List.dropWhile_cons, hp, Bool.false_eq_true, if_false]
      simp [h.1, h.2]

/-- Dropping a suffix preserves a character-wise invariant. -/
theorem dropTrailingWhile_all (p q : Char → Bool) :
    ∀ l : List Char, l.all q = true → (dropTrailingWhile p l).all q = true := by
  intro l
  induction l with
  | nil => intro _; rfl
  | cons c cs ih =>
    intro h
    simp only [List.all_cons, Bool.and_eq_true] at h
    simp only [dropTrailingWhile]
    cases ht : dropTrailingWhile p cs with
    | nil =>
      cases hp : p c with
      | true => simp
      | false => simp [h.1]
    | cons d ds =>
      have := ih h.2
      rw [ht] at this
      simp only [List.all_cons, Bool.and_eq_true] at this ⊢
      exact ⟨h.1, this⟩

/-- The no-double-underscore shape passes to the tail. -/
theorem noDouble_tail (c : Char) (t : List Char)
    (h : noDoubleUnderscore (c :: t) = true) : noDoubleUnderscore t = true := by
  cases t with
  | nil => rfl
  | cons d ds =>
    simp only [noDoubleUnderscore, Bool.and_eq_true] at h
    exact h.2

/-- Dropping a prefix preserves the no-double-underscore shape. -/
theorem dropWhile_noDouble (p : Char → Bool) :
    ∀ l : List Char, noDoubleUnderscore l = true →
      noDoubleUnderscore (l.dropWhile p) = true := by
  intro l
  induction l with
  | nil => intro _; rfl
  | cons c cs ih =>
    intro h
    cases hp : p c with
    | true =>
      simp only [List.dropWhile_cons, hp, if_true]
      exact ih (noDouble_tail c cs h)
    | false =>
      simp only [List.dropWhile_cons, hp, Bool.false_eq_true, if_false]
      exact h

/-- Trimming a suffix leaves the list empty or keeps its head. -/
theorem dropTrailingWhile_head (p : Char → Bool) :
    ∀ l : List Char, dropTrailingWhile p l = [] ∨
      (dropTrailingWhile p l).head? = l.head? := by
  intro l
  cases l with
  | nil => exact Or.inl rfl
  | cons c cs =>
    simp only [dropTrailingWhile]
    cases ht : dropTrailingWhile p cs with
    | nil =>
      cases hp : p c with
      | true => exact Or.inl rfl
      | false => exact Or.inr rfl
    | cons d ds => exact Or.inr rfl

/-- Trimming a suffix preserves the no-double-underscore shape. -/
theorem dropTrailingWhile_noDouble (p : Char → Bool) :
    ∀ l : List Char, noDoubleUnderscore l = true →
      noDoubleUnderscore (dropTrailingWhile p l) = true := by
  intro l
  induction l with
  | nil => intro _; rfl
  | cons c cs ih =>
    intro h
    simp only [dropTrailingWhile]
    cases ht : dropTrailingWhile p cs with
    | nil =>
      cases hp : p c with
      | true => rfl
      | false => rfl
    | cons d ds =>
      have hnd : noDoubleUnderscore (d :: ds) = true := by
        rw [← ht]
        exact ih (noDouble_tail c cs h)
      by_cases hcu : c = '_'
      · subst hcu
        refine noDouble_cons_underscore _ ?_ hnd
        rcases dropTrailingWhile_head p cs with he | he
        · rw [ht] at he; cases he
        · rw [ht] at he
          cases cs with
          | nil => simp [dropTrailingWhile] at ht
          | cons e es =>
            simp only [List.head?_cons, Option.some.injEq] at he
            simp only [noDoubleUnderscore, Bool.and_eq_true] at h
            have hne : ¬(e = '_') := by
              have h1 := h.1
              simp at h1
              exact h1
            intro hcon
            simp only [List.head?_cons, Option.some.injEq] at hcon
            exact hne (by rw [← he, hcon])
      · exact noDouble_cons_ne c _ hcu hnd

/-- The head surviving a dropWhile refutes the predicate. -/
theorem head_dropWhile_false (p : Char → Bool) :
    ∀ (l : List Char) (c : Char), (l.dropWhile p).head? = some c → p c = false := by
  intro l
  induction l with
  | nil => intro c h; cases h
  | cons d ds ih =>
    intro c h
    cases hp : p d with
    | true =>
      simp only [List.dropWhile_cons, hp, if_true] at h
      exact ih c h
    | false =>
      simp only [List.dropWhile_cons, hp, Bool.false_eq_true, if_false,
        List.head?_cons, Option.some.injEq] at h
      rw [← h]
      exact hp

/-- The last character of a nonempty list is its head exactly when the tail is empty. -/
theorem lastChar_cons (c : Char) (t : List Char) :
    lastChar (c :: t) = if t.isEmpty then some c else lastChar t := by
  cases t with
  | nil => rfl
  | cons d ds => rfl

/-- The last character surviving a suffix trim refutes the predicate. -/
theorem lastChar_dropTrailingWhile_false (p : Char → Bool) :
    ∀ (l : List Char) (c : Char), lastChar (dropTrailingWhile p l) = some c →
      p c = false := by
  intro l
  induction l with
  | nil => intro c h; cases h
  | cons d ds ih =>
    intro c h
    simp only [dropTrailingWhile] at h
    cases ht : dropTrailingWhile p ds with
    | nil =>
      rw [ht] at h
      cases hp : p d with
      | true =>
        rw [hp] at h
        simp [lastChar] at h
      | false =>
        rw [hp] at h
        simp only [Bool.false_eq_true, if_false] at h
        have hcd : c = d := by
          simp [lastChar] at h
          exact h.symm
        rw [hcd]
        exact hp
    | cons e es =>
      rw [ht] at h
      rw [lastChar_cons] at h
      simp only [List.isEmpty_cons, Bool.false_eq_true, if_false] at h
      rw [← ht] at h
      exact ih c h

/-- A list whose head refutes the predicate is fixed by dropWhile. -/
theorem head_false_dropWhile_id (p : Char → Bool) (l : List Char)
    (h : ∀ c, l.head? = some c → p c = false) : l.dropWhile p = l := by
  cases l with
  | nil => rfl
  | cons c cs => simp [List.dropWhile_cons, h c rfl]

/-- A list whose last character refutes the predicate is fixed by the suffix trim. -/
theorem last_false_dropTrailingWhile_id (p : Char → Bool) :
    ∀ l : List Char, (∀ c, lastChar l = some c → p c = false) →
      dropTrailingWhile p l = l := by
  intro l
  induction l with
  | nil => intro _; rfl
  | cons c cs ih =>
    intro h
    simp only [dropTrailingWhile]
    cases hcs : cs with
    | nil =>
      have hc := h c (by rw [hcs]; rfl)
      simp [dropTrailingWhile, hc]
    | cons d ds =>
      have hlast : ∀ x, lastChar cs = some x → p x = false := by
        intro x hx
        refine h x ?_
        rw [lastChar_cons]
        simp [hcs]
        rw [← hcs]
        exact hx
      have := ih hlast
      rw [hcs] at this
      rw [this]

/-- Upper-casing fixes lists over the identifier alphabet. -/
theorem map_upper_id : ∀ l : List Char, allIdent l = true →
    l.map goUpperChar = l := by
  intro l
  induction l with
  | nil => intro _; rfl
  | cons c cs ih =>
    intro h
    simp only [allIdent, List.all_cons, Bool.and_eq_true] at h
    simp only [List.map_cons, goUpperChar_ident c h.1]
    rw [ih h.2]

/-- The run replacement fixes lists over the identifier alphabet. -/
theorem replRunsAux_id : ∀ l : List Char, allIdent l = true →
    replRunsAux false l = l := by
  intro l
  induction l with
  | nil => intro _; rfl
  | cons c cs ih =>
    intro h
    simp only [allIdent, List.all_cons, Bool.and_eq_true] at h
    simp only [replRunsAux, h.1, if_true]
    rw [ih h.2]

/-- The non-identifier replacement fixes identifier lists that start with an upper-case letter. -/
theorem replNonidents_id (l : List Char) (h : allIdent l = true)
    (hh : ∀ c, l.head? = some c → isUpperAZ c = true) : replNonidents l = l := by
  cases l with
  | nil => rfl
  | cons c cs =>
    simp only [allIdent, List.all_cons, Bool.and_eq_true] at h
    have hk : keyStartChar c = true := by
      simp [keyStartChar, hh c rfl]
    simp only [replNonidents, hk, if_true]
    rw [replRunsAux_id cs h.2]

/-- The underscore collapse fixes lists without underscore runs. -/
theorem collapseAux_id : ∀ l : List Char, noDoubleUnderscore l = true →
    collapseAux false l = l ∧ (l.head? ≠ some '_' → collapseAux true l = l) := by
  intro l
  induction l with
  | nil => intro _; exact ⟨rfl, fun _ => rfl⟩
  | cons c cs ih =>
    intro h
    have hcs := noDouble_tail c cs h
    by_cases hc : c = '_'
    · subst hc
      have htail : collapseAux true cs = cs := by
        refine (ih hcs).2 ?_
        cases hcase : cs with
        | nil => simp
        | cons d ds =>
          rw [hcase] at h
          simp only [noDoubleUnderscore, Bool.and_eq_true] at h
          have hd : ¬(d = '_') := by
            have h1 := h.1
            simp at h1
            exact h1
          simp [hd]
      constructor
      · show '_' :: collapseAux true cs = '_' :: cs
        rw [htail]
      · exact fun hh => absurd rfl hh
    · have hboth : collapseAux false (c :: cs) = c :: collapseAux false cs ∧
          collapseAux true (c :: cs) = c :: collapseAux false cs := by
        constructor <;> simp [collapseAux, hc]
      constructor
      · rw [hboth.1, (ih hcs).1]
      · intro _
        rw [hboth.2, (ih hcs).1]

/-- The last character of a list belongs to it. -/
theorem lastChar_mem : ∀ (l : List Char) (c : Char), lastChar l = some c → c ∈ l := by
  intro l
  induction l with
  | nil => intro c h; cases h
  | cons d ds ih =>
    intro c h
    cases ds with
    | nil =>
      simp [lastChar] at h
      simp [h]
    | cons e es =>
      exact List.mem_cons_of_mem _ (ih c h)

/-- A list none of whose characters satisfy the predicate is fixed by dropWhile. -/
theorem allFalse_dropWhile_id (p : Char → Bool) (l : List Char)
    (h : ∀ c ∈ l, p c = false) : l.dropWhile p = l :=
  head_false_dropWhile_id p l (fun c hc => h c (List.mem_of_mem_head? hc))

/-- A list none of whose characters satisfy the predicate is fixed by the suffix trim. -/
theorem allFalse_dropTrailingWhile_id (p : Char → Bool) (l : List Char)
    (h : ∀ c ∈ l, p c = false) : dropTrailingWhile p l = l :=
  last_false_dropTrailingWhile_id p l (fun c hc => h c (lastChar_mem l c hc))

/-- Every sanitized key is an underscore-trimmed token over [A-Z0-9_] with no underscore runs. -/
theorem sanitizeKey_props (s : String) :
    allIdent (sanitizeKey s).toList = true ∧
    noDoubleUnderscore (sanitizeKey s).toList = true ∧
    (sanitizeKey s).toList.head? ≠ some '_' ∧
    lastChar (sanitizeKey s).toList ≠ some '_' := by
  have hAllR := replNonidents_allIdent ((goTrimSpace s).toList.map goUpperChar)
  have hAllC := collapseAux_allIdent false _ hAllR
  have hndC := collapseAux_noDouble false
    (replNonidents ((goTrimSpace s).toList.map goUpperChar))
  refine ⟨?_, ?_, ?_, ?_⟩
  · show allIdent (trimUnderscores (collapseAux false (replNonidents
      ((goTrimSpace s).toList.map goUpperChar)))) = true
    unfold trimUnderscores
    exact dropTrailingWhile_all _ _ _ (dropWhile_all _ _ _ hAllC)
  · show noDoubleUnderscore (trimUnderscores (collapseAux false (replNonidents
      ((goTrimSpace s).toList.map goUpperChar)))) = true
    unfold trimUnderscores
    exact dropTrailingWhile_noDouble _ _ (dropWhile_noDouble _ _ hndC)
  · show (trimUnderscores (collapseAux false (replNonidents
      ((goTrimSpace s).toList.map goUpperChar)))).head? ≠ some '_'
    unfold trimUnderscores
    intro hcon
    rcases dropTrailingWhile_head (fun c => c = '_')
        ((collapseAux false (replNonidents
          ((goTrimSpace s).toList.map goUpperChar))).dropWhile (fun c => c = '_'))
      with he | he
    · rw [he] at hcon
      cases hcon
    · rw [he] at hcon
      have := head_dropWhile_false _ _ _ hcon
      simp at this
  · show lastChar (trimUnderscores (collapseAux false (replNonidents
      ((goTrimSpace s).toList.map goUpperChar)))) ≠ some '_'
    unfold trimUnderscores
    intro hcon
    have := lastChar_dropTrailingWhile_false _ _ _ hcon
    simp at this

/-- Sanitization fixes its own outputs whenever they are empty or begin with a letter. -/
theorem claim5_helper (s : String) (hlf : lettersFirst (sanitizeKey s) = true) :
    sanitizeKey (sanitizeKey s) = sanitizeKey s := by
  obtain ⟨hAll, hnd, hhead, hlast⟩ := sanitizeKey_props s
  have hallmem : ∀ c ∈ (sanitizeKey s).toList, identChar c = true := by
    intro c hc
    exact List.all_eq_true.mp hAll c hc
  have hspace : ∀ c ∈ (sanitizeKey s).toList, isGoSpace c = false :=
    fun c hc => identChar_not_space c (hallmem c hc)
  have h1 : goTrimSpace (sanitizeKey s) = sanitizeKey s := by
    show String.mk (dropTrailingWhile isGoSpace
      ((sanitizeKey s).toList.dropWhile isGoSpace)) = sanitizeKey s
    rw [allFalse_dropWhile_id _ _ hspace, allFalse_dropTrailingWhile_id _ _ hspace]
    exact stringMk_toList _
  have hUp : ∀ c, (sanitizeKey s).toList.head? = some c → isUpperAZ c = true := by
    intro c hc
    simp only [lettersFirst, hc] at hlf
    exact hlf
  have hu1 : ∀ c, (sanitizeKey s).toList.head? = some c →
      (fun c => decide (c = '_')) c = false := by
    intro c hc
    by_cases hce : c = '_'
    · rw [hce] at hc
      exact absurd hc hhead
    · simp [hce]
  have hu2 : ∀ c, lastChar (sanitizeKey s).toList = some c →
      (fun c => decide (c = '_')) c = false := by
    intro c hc
    by_cases hce : c = '_'
    · rw [hce] at hc
      exact absurd hc hlast
    · simp [hce]
  show String.mk (trimUnderscores (collapseAux false (replNonidents
    ((goTrimSpace (sanitizeKey s)).toList.map goUpperChar)))) = sanitizeKey s
  rw [h1, map_upper_id _ hAll, replNonidents_id _ hAll hUp, (collapseAux_id _ hnd).1]
  unfold trimUnderscores
  rw [head_false_dropWhile_id _ _ hu1,
    last_false_dropTrailingWhile_id _ _ hu2]
  exact stringMk_toList _

/-- C5 (amended): sanitization is total — every input maps to an
underscore-trimmed token over [A-Z0-9_] with no underscore runs — and
it is idempotent on outputs that are empty or begin with a letter; an
output beginning with a digit is not a fixed point, because the
leading-digit rule strips the digit on re-sanitization, and the result
can be empty even for inputs containing valid characters. -/
theorem claim5_theorem (s : String) :
    isSanitizedToken (sanitizeKey s) = true ∧
    (lettersFirst (sanitizeKey s) = true →
      sanitizeKey (sanitizeKey s) = sanitizeKey s) := by
  obtain ⟨hAll, hnd, hhead, hlast⟩ := sanitizeKey_props s
  refine ⟨?_, claim5_helper s⟩
  simp [isSanitizedToken]
  exact ⟨⟨⟨hAll, hnd⟩, hhead⟩, hlast⟩

/-- C5: the claim asserts idempotence and non-emptiness for inputs with
valid characters; sanitizing the two-digit key yields a token that
sanitizes further to the empty string, and the single digit, a valid
character, sanitizes to the empty string. -/
theorem claim5_counterexample :
    sanitizeKey "9_9" = "9" ∧
    sanitizeKey (sanitizeKey "9_9") = "" ∧
    sanitizeKey (sanitizeKey "9_9") ≠ sanitizeKey "9_9" ∧
    sanitizeKey "9" = "" := by
  decide

/-- Witness for C5 at a key whose sanitized form begins with a letter. -/
theorem claim5_witness :
    isSanitizedToken (sanitizeKey "a b9") = true ∧
    sanitizeKey (sanitizeKey "a b9") = sanitizeKey "a b9" :=
  by
  have h := claim5_theorem "a b9"
  exact ⟨h.1, h.2 (by decide)⟩
